import Mathlib

/-
Verification development for the `pytreeclass` repository.

The repository implements an immutable, dataclass-like structured-object
model whose instances are flattened into (leaves, structural descriptor)
pairs for a host array framework.  The source mixes several revisions of
the library; each definition below names the source file and function it
embeds.  Machine values are modelled with `Int`/`Bool`/`String`, fallible
code with `Except`/`Option`, and Python dicts with ordered association
lists (insertion order preserved, as in CPython).
-/

namespace PyTC

/-! ## String containment helper (used to state facts about error messages) -/

/-- The string `s` mentions `sub`: `sub` occurs contiguously inside `s`.
Used to state that an error message names an attribute, a type, or a
suggested API call. -/
def Mentions (s sub : String) : Prop :=
  sub.data <:+: s.data

instance (s sub : String) : Decidable (Mentions s sub) :=
  inferInstanceAs (Decidable (sub.data <:+: s.data))

theorem mentions_append_left {sub : String} (s : String) {t : String}
    (h : Mentions t sub) : Mentions (s ++ t) sub := by
  obtain ⟨u, v, huv⟩ := h
  exact ⟨s.data ++ u, v, by simp [String.data_append, ← huv, List.append_assoc]⟩

theorem mentions_append_right {sub s : String} (t : String)
    (h : Mentions s sub) : Mentions (s ++ t) sub := by
  obtain ⟨u, v, huv⟩ := h
  exact ⟨u, v ++ t.data, by simp [String.data_append, ← huv, List.append_assoc]⟩

theorem mentions_refl (s : String) : Mentions s s :=
  ⟨[], [], by simp⟩

/-! ## Leaf-value model for the non-differentiability predicate

Source: `src/pytreeclass/_src/misc.py`, `_is_nondiff` (lines 65-90).
A runtime leaf is modelled by `PNode`.  Python containers traversed by
`jax.tree_util` (lists/tuples/dicts) are collapsed into the single
`iter` constructor; `jnp` arrays carry only their dtype kind and data,
since `_is_nondiff` inspects nothing else. -/

/-- Element-kind of a numeric array, as queried by
`jnp.issubdtype(node.dtype, jnp.inexact)`. -/
inductive Dtype where
  | dbool
  | dint
  | dfloat
  | dcomplex
deriving DecidableEq, Repr

/-- `jnp.inexact` covers floating and complex-floating dtypes. -/
def Dtype.isInexact : Dtype → Bool
  | .dfloat => true
  | .dcomplex => true
  | _ => false

/-- Runtime leaf values seen by `_is_nondiff`.  `callable b` is a Python
callable with `b = is_treeclass(node)`; `objOther` is any other
non-scalar, non-array, non-callable object (e.g. `None` or a
non-callable treeclass instance); `iter` is a pytree container. -/
inductive PNode where
  | int : Int → PNode
  | bool : Bool → PNode
  | str : String → PNode
  | float : Int → PNode
  | arr : Dtype → List Int → PNode
  | callable : Bool → PNode
  | objOther : PNode
  | iter : List PNode → PNode
deriving Repr

/-- Embeds `_is_nondiff_item` (`misc.py` lines 68-84): scalar `int`,
`bool`, `str` are non-differentiable; an array is non-differentiable
when its dtype is not a subdtype of `jnp.inexact`; a callable that is
not a treeclass is non-differentiable; every other value is
differentiable. -/
def isNondiffItem : PNode → Bool
  | .int _ => true
  | .bool _ => true
  | .str _ => true
  | .arr dt _ => !dt.isInexact
  | .callable isTree => !isTree
  | _ => false

mutual

/-- Pytree leaves of a node: `jax.tree_util` flattens containers and
treats everything else as a leaf. -/
def pnodeLeaves : PNode → List PNode
  | .iter xs => pnodeLeavesList xs
  | n => [n]

/-- Pytree leaves of a list of nodes, in order. -/
def pnodeLeavesList : List PNode → List PNode
  | [] => []
  | x :: xs => pnodeLeaves x ++ pnodeLeavesList xs

end

/-- Embeds `_is_nondiff` (`misc.py` lines 86-90): on an iterable it
computes `jtu.tree_all(jtu.tree_map(_is_nondiff_item, item))`, i.e. the
item predicate over every pytree leaf of the container; otherwise it
applies the item predicate directly.  (Python strings and arrays also
satisfy `isinstance(_, Iterable)` but are pytree leaves themselves, so
routing them through the default branch yields the same value.) -/
def isNondiff (item : PNode) : Bool :=
  match item with
  | .iter xs => (pnodeLeavesList xs).all isNondiffItem
  | n => isNondiffItem n

/-- Nodes taking the iterable branch of `_is_nondiff`. -/
def PNode.isIterable : PNode → Bool
  | .iter _ => true
  | _ => false

theorem pnodeLeaves_all_isNondiffItem (n : PNode) :
    (pnodeLeaves n).all isNondiffItem = isNondiff n := by
  cases n <;> simp [pnodeLeaves, isNondiff]

theorem pnodeLeavesList_all_isNondiffItem (xs : List PNode) :
    (pnodeLeavesList xs).all isNondiffItem = xs.all isNondiff := by
  induction xs with
  | nil => rfl
  | cons x xs ih =>
      simp only [pnodeLeavesList, List.all_append, List.all_cons, ih,
        pnodeLeaves_all_isNondiffItem]

/-! ## Field-map builder: rejection of mutable literal defaults

Source: `src/pytreeclass/_src/tree_decorator.py`, `_generate_field_map`
(lines 98-143).  Only the data that function inspects is modelled:
annotated names, the class attribute bound to each name (an explicit
`Field`, a plain value, or absent), and the inherited field map. -/

/-- Plain (non-`Field`) values that can sit in an annotated class slot. -/
inductive PlainVal where
  | intv : Int → PlainVal
  | strv : String → PlainVal
  | listLit : List Int → PlainVal
  | dictLit : List (String × Int) → PlainVal
  | setLit : List Int → PlainVal
  | tupleLit : List Int → PlainVal
deriving DecidableEq, Repr

/-- The guard `isinstance(value, (list, dict, set))` of
`_generate_field_map`: exactly the mutable literals. -/
def PlainVal.isMutableLiteral : PlainVal → Bool
  | .listLit _ => true
  | .dictLit _ => true
  | .setLit _ => true
  | _ => false

/-- Crude rendering of a plain value, standing in for Python `str(value)`
inside the error message (the exact rendering is irrelevant to the
claims). -/
def PlainVal.render : PlainVal → String
  | .intv i => toString i
  | .strv s => s
  | .listLit xs => "[" ++ String.intercalate ", " (xs.map toString) ++ "]"
  | .dictLit xs => "dict(" ++ String.intercalate ", " (xs.map (fun p => p.1 ++ ": " ++ toString p.2)) ++ ")"
  | .setLit xs => "set(" ++ String.intercalate ", " (xs.map toString) ++ ")"
  | .tupleLit xs => "(" ++ String.intercalate ", " (xs.map toString) ++ ")"

/-- Field descriptor of the `tree_decorator.py` revision, restricted to
the members `_generate_field_map` reads or writes.  `none` stands for
the `_MISSING` sentinel.  `wrapped` records that the descriptor was
passed through `freeze` (the `tree_freeze` module is not part of the
sources; only the fact of wrapping matters here). -/
structure DField where
  name : Option String := none
  annot : Option String := none
  default : Option PlainVal := none
  frozen : Bool := false
  wrapped : Bool := false
deriving DecidableEq, Repr

/-- A value bound to an annotated class attribute, as seen by
`getattr(cls, name, _MISSING)`. -/
inductive ClassVal where
  | missing : ClassVal
  | fld : DField → ClassVal
  | plain : PlainVal → ClassVal
deriving DecidableEq, Repr

/-- Ordered association-list lookup (Python `dict` access). -/
def alookup {α : Type} (xs : List (String × α)) (k : String) : Option α :=
  match xs with
  | [] => none
  | (k0, v0) :: rest => if k0 = k then some v0 else alookup rest k

/-- Python `d[k] = v` on an insertion-ordered dict: replaces the value in
place when the key exists, otherwise appends the pair. -/
def dictInsert {α : Type} (xs : List (String × α)) (k : String) (v : α) :
    List (String × α) :=
  match xs with
  | [] => [(k, v)]
  | (k0, v0) :: rest =>
      if k0 = k then (k0, v) :: rest else (k0, v0) :: dictInsert rest k v

/-- Python `dict(a, **b)`-style merge: `a`'s keys keep their position
with `b`'s value winning, then `b`'s new keys follow in `b`'s order. -/
def dictMerge {α : Type} (a b : List (String × α)) : List (String × α) :=
  b.foldl (fun acc p => dictInsert acc p.1 p.2) a

/-- Error message of the mutable-default rejection in
`_generate_field_map` (lines 135-138). -/
def mutableDefaultMsg (v : PlainVal) (name clsName : String) : String :=
  "mutable value= " ++ v.render ++ " is not allowed as a value for field `"
    ++ name ++ "` in class `" ++ clsName ++ "`.\n use `field(default_factory=lambda:"
    ++ v.render ++ ")` instead"

/-- Embeds one iteration of the annotation loop of `_generate_field_map`
(lines 113-141): an explicit `Field` gets its name/type filled in (and is
wrapped by `freeze` when marked frozen); an absent value synthesizes a
required field; a plain value synthesizes a field with that default,
except that mutable literals are rejected with a `TypeError`. -/
def fieldMapStep (clsName : String) (fm : List (String × DField))
    (name ty : String) (value : ClassVal) :
    Except String (List (String × DField)) :=
  match value with
  | .fld f =>
      let f := { f with name := some name, annot := some ty }
      .ok (dictInsert fm name (if f.frozen then { f with wrapped := true } else f))
  | .missing =>
      .ok (dictInsert fm name { name := some name, annot := some ty })
  | .plain v =>
      if v.isMutableLiteral then
        .error (mutableDefaultMsg v name clsName)
      else
        .ok (dictInsert fm name { name := some name, annot := some ty, default := some v })

/-- Embeds `_generate_field_map` (lines 98-143): fold the inherited field
map (built oldest-ancestor-first) through the class's own annotations in
declaration order. -/
def generateFieldMap (clsName : String) (inherited : List (String × DField))
    (annotations : List (String × String))
    (classAttrs : List (String × ClassVal)) :
    Except String (List (String × DField)) :=
  annotations.foldlM
    (fun fm p =>
      fieldMapStep clsName fm p.1 p.2 ((alookup classAttrs p.1).getD .missing))
    inherited


theorem mutableDefaultMsg_mentions_factory (v : PlainVal) (name cls : String) :
    Mentions (mutableDefaultMsg v name cls) "default_factory" := by
  unfold mutableDefaultMsg
  apply mentions_append_right
  apply mentions_append_right
  apply mentions_append_left
  decide

theorem alookup_dictInsert_self {α : Type} (xs : List (String × α)) (k : String) (v : α) :
    alookup (dictInsert xs k v) k = some v := by
  induction xs with
  | nil => simp [dictInsert, alookup]
  | cons p rest ih =>
      obtain ⟨k0, v0⟩ := p
      by_cases h : k0 = k
      · simp [dictInsert, h, alookup]
      · simp [dictInsert, h, alookup, ih]

theorem alookup_dictInsert_ne {α : Type} (xs : List (String × α)) {k k' : String} (v : α)
    (h : k' ≠ k) : alookup (dictInsert xs k v) k' = alookup xs k' := by
  induction xs with
  | nil => simp [dictInsert, alookup, Ne.symm h]
  | cons p rest ih =>
      obtain ⟨k0, v0⟩ := p
      by_cases hp : k0 = k
      · subst hp
        have hne : k0 ≠ k' := fun he => h he.symm
        simp [dictInsert, alookup, hne]
      · by_cases hk' : k0 = k'
        · subst hk'
          simp [dictInsert, hp, alookup]
        · simp [dictInsert, hp, alookup, hk', ih]

theorem fieldMapStep_ok_shape (clsName : String) (fm : List (String × DField))
    (name ty : String) (value : ClassVal) (fm' : List (String × DField))
    (h : fieldMapStep clsName fm name ty value = .ok fm') :
    ∃ f, fm' = dictInsert fm name f := by
  cases value with
  | fld f => exact ⟨_, by simpa [fieldMapStep] using h.symm⟩
  | missing => exact ⟨_, by simpa [fieldMapStep] using h.symm⟩
  | plain v =>
      by_cases hm : v.isMutableLiteral
      · simp [fieldMapStep, hm] at h
      · exact ⟨_, by simpa [fieldMapStep, hm] using h.symm⟩

theorem generateFieldMap_preserves (clsName : String)
    (annots : List (String × String)) (classAttrs : List (String × ClassVal)) :
    ∀ fm m, generateFieldMap clsName fm annots classAttrs = .ok m →
      ∀ k, k ∉ annots.map Prod.fst → alookup m k = alookup fm k := by
  induction annots with
  | nil =>
      intro fm m h k _
      simp only [generateFieldMap, List.foldlM] at h
      simp only [pure, Except.pure, Except.ok.injEq] at h
      rw [h]
  | cons a rest ih =>
      intro fm m h k hk
      simp only [generateFieldMap, List.foldlM_cons] at h
      cases hstep : fieldMapStep clsName fm a.1 a.2 ((alookup classAttrs a.1).getD .missing) with
      | error e => rw [hstep] at h; simp [bind, Except.bind] at h
      | ok fm' =>
          rw [hstep] at h
          simp only [bind, Except.bind] at h
          obtain ⟨f, rfl⟩ := fieldMapStep_ok_shape _ _ _ _ _ _ hstep
          have hk1 : k ∉ rest.map Prod.fst := fun hmem => hk (by simp [hmem])
          have hka : k ≠ a.1 := fun he => hk (by simp [he])
          rw [ih _ _ h k hk1, alookup_dictInsert_ne _ _ hka]

/-- Claim C5: the value-inspection non-differentiability predicate
(`_is_nondiff`, `misc.py` lines 65-90) classifies a non-container leaf as
non-differentiable exactly when it is a boolean, integer, or string
scalar, a numeric array whose element type is not a floating-point
(inexact) kind, or a callable that is not a treeclass instance; an
iterable container is non-differentiable as a whole exactly when every
one of its elements is individually non-differentiable. -/
theorem claim_C5_nondiff_value_predicate :
    (∀ n : PNode, n.isIterable = false →
      (isNondiff n = true ↔
        ((∃ b, n = .bool b) ∨ (∃ i, n = .int i) ∨ (∃ s, n = .str s) ∨
          (∃ dt xs, n = .arr dt xs ∧ dt.isInexact = false) ∨
          n = .callable false))) ∧
    (∀ xs : List PNode,
      isNondiff (.iter xs) = true ↔ ∀ x ∈ xs, isNondiff x = true) := by
  constructor
  · intro n hn
    cases n <;>
      simp_all [isNondiff, isNondiffItem, PNode.isIterable]
  · intro xs
    simp only [isNondiff]
    rw [pnodeLeavesList_all_isNondiffItem]
    exact List.all_eq_true

/-- Concrete instantiation of `claim_C5_nondiff_value_predicate`: an
integer scalar is non-differentiable. -/
theorem claim_C5_nondiff_value_predicate_witness :
    isNondiff (PNode.int 3) = true :=
  (claim_C5_nondiff_value_predicate.1 (.int 3) (by decide)).mpr
    (Or.inr (Or.inl ⟨3, rfl⟩))

/-- Recover the raw class-attribute lookup from its `getD`-defaulted
form. -/
theorem getD_missing_plain {classAttrs : List (String × ClassVal)} {k : String}
    {v : PlainVal}
    (hv : (alookup classAttrs k).getD .missing = .plain v) :
    alookup classAttrs k = some (.plain v) := by
  cases h : alookup classAttrs k with
  | none => rw [h] at hv; simp at hv
  | some c => rw [h] at hv; simp at hv; rw [hv]

/-- A field-map build step fails exactly on a mutable plain literal, with
the mutable-default message. -/
theorem fieldMapStep_error_iff (clsName : String) (fm : List (String × DField))
    (name ty : String) (value : ClassVal) (e : String) :
    fieldMapStep clsName fm name ty value = .error e ↔
      ∃ v, value = .plain v ∧ v.isMutableLiteral = true ∧
        e = mutableDefaultMsg v name clsName := by
  cases value with
  | fld f => simp [fieldMapStep]
  | missing => simp [fieldMapStep]
  | plain v =>
      by_cases hm : v.isMutableLiteral
      · constructor
        · intro h
          simp only [fieldMapStep, hm, if_true] at h
          exact ⟨v, rfl, hm, ((Except.error.injEq _ _).mp h).symm⟩
        · rintro ⟨w, hw, hwm, rfl⟩
          have hvw : v = w := by
            simpa using hw
          subst hvw
          simp [fieldMapStep, hm]
      · constructor
        · intro h
          simp [fieldMapStep, hm] at h
        · rintro ⟨w, hw, hwm, rfl⟩
          have hvw : v = w := by
            simpa using hw
          subst hvw
          rw [hwm] at hm
          exact absurd rfl hm

theorem generateFieldMap_error_of_mutable (clsName : String)
    (annots : List (String × String)) (classAttrs : List (String × ClassVal)) :
    ∀ fm, (∃ p ∈ annots, ∃ v, alookup classAttrs p.1 = some (.plain v) ∧
        v.isMutableLiteral = true) →
      ∃ msg, generateFieldMap clsName fm annots classAttrs = .error msg ∧
        Mentions msg "default_factory" := by
  induction annots with
  | nil => intro fm h; simp at h
  | cons a rest ih =>
      intro fm h
      cases hstep : fieldMapStep clsName fm a.1 a.2
          ((alookup classAttrs a.1).getD .missing) with
      | error e =>
          obtain ⟨v, _, _, he⟩ := (fieldMapStep_error_iff _ _ _ _ _ _).mp hstep
          refine ⟨e, ?_, he ▸ mutableDefaultMsg_mentions_factory v a.1 clsName⟩
          simp [generateFieldMap, List.foldlM_cons, hstep, bind, Except.bind]
      | ok fm' =>
          have hrest : ∃ p ∈ rest, ∃ v, alookup classAttrs p.1 = some (.plain v) ∧
              v.isMutableLiteral = true := by
            obtain ⟨p, hp, w, hw, hwm⟩ := h
            rcases List.mem_cons.mp hp with rfl | hp
            · exfalso
              have : (alookup classAttrs p.1).getD .missing = .plain w := by
                rw [hw]; rfl
              rw [this] at hstep
              simp [fieldMapStep, hwm] at hstep
            · exact ⟨p, hp, w, hw, hwm⟩
          obtain ⟨msg, hmsg, hmen⟩ := ih fm' hrest
          refine ⟨msg, ?_, hmen⟩
          simp only [generateFieldMap, List.foldlM_cons, hstep, bind, Except.bind]
          simpa [generateFieldMap] using hmsg

theorem generateFieldMap_ok_of_no_mutable (clsName : String)
    (annots : List (String × String)) (classAttrs : List (String × ClassVal)) :
    ∀ fm, (∀ p ∈ annots, ∀ v, alookup classAttrs p.1 = some (.plain v) →
        v.isMutableLiteral = false) →
      ∃ m, generateFieldMap clsName fm annots classAttrs = .ok m ∧
        ((annots.map Prod.fst).Nodup →
          ∀ p ∈ annots, ∀ v, alookup classAttrs p.1 = some (.plain v) →
            alookup m p.1 =
              some { name := some p.1, annot := some p.2, default := some v }) := by
  induction annots with
  | nil =>
      intro fm _
      refine ⟨fm, by simp [generateFieldMap, List.foldlM, pure, Except.pure], ?_⟩
      intro _ p hp
      simp at hp
  | cons a rest ih =>
      intro fm h
      have hrest : ∀ p ∈ rest, ∀ v, alookup classAttrs p.1 = some (.plain v) →
          v.isMutableLiteral = false :=
        fun p hp v hv => h p (List.mem_cons_of_mem _ hp) v hv
      cases hstep : fieldMapStep clsName fm a.1 a.2
          ((alookup classAttrs a.1).getD .missing) with
      | error e =>
          exfalso
          obtain ⟨v, hv, hvm, _⟩ := (fieldMapStep_error_iff _ _ _ _ _ _).mp hstep
          have := h a (by simp) v (getD_missing_plain hv)
          rw [this] at hvm
          exact Bool.false_ne_true hvm
      | ok fm' =>
          obtain ⟨m, hm, hb⟩ := ih fm' hrest
          refine ⟨m, ?_, ?_⟩
          · simp only [generateFieldMap, List.foldlM_cons, hstep, bind, Except.bind]
            simpa [generateFieldMap] using hm
          · intro hnd p hp v hv
            have hnd1 : (rest.map Prod.fst).Nodup := by
              simpa using List.Nodup.of_cons hnd
            rcases List.mem_cons.mp hp with rfl | hp
            · have hka : p.1 ∉ rest.map Prod.fst := by
                simp only [List.map_cons, List.nodup_cons] at hnd
                exact hnd.1
              have hpres := generateFieldMap_preserves clsName rest classAttrs fm' m hm p.1 hka
              rw [hpres]
              have hstep2 := hstep
              have hgd : (alookup classAttrs p.1).getD .missing = .plain v := by
                rw [hv]; rfl
              rw [hgd] at hstep2
              have hnm := h p (by simp) v hv
              simp only [fieldMapStep, hnm, Bool.false_eq_true, if_false,
                Except.ok.injEq] at hstep2
              rw [← hstep2]
              exact alookup_dictInsert_self _ _ _
            · exact hb hnd1 p hp v hv

/-- Claim C8: during field-map building (`_generate_field_map`,
`tree_decorator.py` lines 98-143), a directly annotated class attribute
holding a plain (non-`Field`) value yields a synthesized descriptor with
that value as default, except that a mutable literal (list, dict or set)
is rejected at class-build time with an error instructing the caller to
use a default factory. -/
theorem claim_C8_mutable_default_rejection (clsName : String)
    (inherited : List (String × DField)) (annots : List (String × String))
    (classAttrs : List (String × ClassVal)) :
    ((∃ p ∈ annots, ∃ v, alookup classAttrs p.1 = some (.plain v) ∧
        v.isMutableLiteral = true) →
      ∃ msg, generateFieldMap clsName inherited annots classAttrs = .error msg ∧
        Mentions msg "default_factory") ∧
    ((∀ p ∈ annots, ∀ v, alookup classAttrs p.1 = some (.plain v) →
        v.isMutableLiteral = false) →
      ∃ m, generateFieldMap clsName inherited annots classAttrs = .ok m ∧
        ((annots.map Prod.fst).Nodup →
          ∀ p ∈ annots, ∀ v, alookup classAttrs p.1 = some (.plain v) →
            alookup m p.1 =
              some { name := some p.1, annot := some p.2, default := some v })) :=
  ⟨generateFieldMap_error_of_mutable clsName annots classAttrs inherited,
    generateFieldMap_ok_of_no_mutable clsName annots classAttrs inherited⟩

/-- Concrete instantiation of `claim_C8_mutable_default_rejection`: a
class `A` with annotation `x : int` bound to the list literal `[1]` is
rejected, and one with `x : int` bound to `2` builds a field map mapping
`x` to a descriptor with default `2`. -/
theorem claim_C8_mutable_default_rejection_witness :
    (∃ msg, generateFieldMap "A" [] [("x", "int")]
        [("x", ClassVal.plain (.listLit [1]))] = .error msg ∧
      Mentions msg "default_factory") ∧
    (∃ m, generateFieldMap "A" [] [("x", "int")]
        [("x", ClassVal.plain (.intv 2))] = .ok m ∧
      alookup m "x" =
        some { name := some "x", annot := some "int", default := some (.intv 2) }) := by
  constructor
  · exact (claim_C8_mutable_default_rejection "A" [] [("x", "int")]
      [("x", ClassVal.plain (.listLit [1]))]).1
      ⟨("x", "int"), by simp, .listLit [1], by simp [alookup], rfl⟩
  · obtain ⟨m, hm, hb⟩ := (claim_C8_mutable_default_rejection "A" [] [("x", "int")]
      [("x", ClassVal.plain (.intv 2))]).2
      (by
        intro p hp v hv
        simp only [List.mem_singleton] at hp
        subst hp
        simp [alookup] at hv
        subst hv
        rfl)
    exact ⟨m, hm,
      by simpa using hb (by simp) ("x", "int") (by simp) (.intv 2) (by simp [alookup])⟩

/-! ## Attribute assignment under the immutability gate

Source: `src/pytreeclass/_src/tree_base.py`, `_setattr` (lines 110-139);
the same frozen-gate message appears in
`src/pytreeclass/_src/treeclass.py`, `_setattr` (lines 88-92). -/

/-- Runtime attribute values, as far as `_setattr` inspects them:
`tcInstance tn` is a treeclass instance (it owns a field map) whose type
is named `tn`. -/
inductive AVal where
  | intv : Int → AVal
  | strv : String → AVal
  | tcInstance : String → AVal
deriving DecidableEq, Repr

/-- Python `repr` of an attribute value (the `value!r` interpolation in
the error message). -/
def AVal.pyRepr : AVal → String
  | .intv i => toString i
  | .strv s => "\x27" ++ s ++ "\x27"
  | .tcInstance tn => tn ++ "(...)"

/-- Field descriptor members consulted by `_setattr`: the optional
callback chain, plus the name/type data of an auto-registered field. -/
structure SField where
  name : Option String := none
  ftype : Option String := none
  callbacks : Option (List (AVal → Except String AVal)) := none

/-- The state of a treeclass instance as `_setattr` sees it: its type
name (never read by `_setattr`), the frozen flag `getattr(tree,
_FROZEN)`, the field map, and the instance variables. -/
structure TreeState where
  typeName : String
  frozen : Bool
  fieldMap : List (String × SField)
  vars : List (String × AVal)

/-- The immutability-violation message raised by `_setattr`
(`tree_base.py` line 113): `Cannot set {key}={value!r}. Use
`.at['{key}'].set({value!r})` instead.` -/
def cannotSetMsg (key : String) (value : AVal) : String :=
  "Cannot set " ++ key ++ "=" ++ value.pyRepr ++ ". Use `.at[\x27" ++ key
    ++ "\x27].set(" ++ value.pyRepr ++ ")` instead."

/-- Callback chain of `_setattr` (lines 122-130): each callback rewrites
the value; a raising callback is re-raised with the owning field named. -/
def applyCallbacks (key : String) (cbs : List (AVal → Except String AVal))
    (v : AVal) : Except String AVal :=
  match cbs with
  | [] => .ok v
  | cb :: rest =>
      match cb v with
      | .ok v2 => applyCallbacks key rest v2
      | .error e => .error ("Error for field=`" ++ key ++ "`:\n" ++ e)

/-- Lines 133-138 of `_setattr`: store the value in the instance
variables, then auto-register a minimal field descriptor when the value
is itself a treeclass instance and the key is not yet a field. -/
def storeVar (tree : TreeState) (key : String) (v : AVal) : TreeState :=
  let tree1 := { tree with vars := dictInsert tree.vars key v }
  match v with
  | .tcInstance tn =>
      if (alookup tree1.fieldMap key).isSome then tree1
      else { tree1 with
        fieldMap := dictInsert tree1.fieldMap key
          { name := some key, ftype := some tn } }
  | _ => tree1

/-- Embeds `_setattr` (`tree_base.py` lines 110-139).  A frozen instance
rejects the assignment with `cannotSetMsg`; otherwise field callbacks are
threaded over the value and the result is stored. -/
def setattrT (tree : TreeState) (key : String) (value : AVal) :
    Except String TreeState :=
  if tree.frozen then
    .error (cannotSetMsg key value)
  else
    match alookup tree.fieldMap key with
    | some f =>
        match f.callbacks with
        | none => .ok (storeVar tree key value)
        | some cbs =>
            match applyCallbacks key cbs value with
            | .error e => .error e
            | .ok v2 => .ok (storeVar tree key v2)
    | none => .ok (storeVar tree key value)

/-- Observable state of the instance after an attempted assignment: a
raised error propagates and the instance object is left as it was (the
raise happens before any write). -/
def runSetattr (tree : TreeState) (key : String) (value : AVal) : TreeState :=
  match setattrT tree key value with
  | .ok t2 => t2
  | .error _ => tree

theorem cannotSetMsg_mentions_key (key : String) (v : AVal) :
    Mentions (cannotSetMsg key v) key := by
  unfold cannotSetMsg
  apply mentions_append_right
  apply mentions_append_right
  apply mentions_append_right
  exact mentions_append_left _ (mentions_refl key)

theorem cannotSetMsg_mentions_at_form (key : String) (v : AVal) :
    Mentions (cannotSetMsg key v)
      (".at[\x27" ++ key ++ "\x27].set(" ++ v.pyRepr ++ ")") := by
  refine ⟨("Cannot set " ++ key ++ "=" ++ v.pyRepr ++ ". Use `").data,
    "` instead.".data, ?_⟩
  have h1 : (". Use `.at[\x27" : String) = ". Use `" ++ ".at[\x27" := by decide
  have h2 : (")` instead." : String) = ")" ++ "` instead." := by decide
  simp only [cannotSetMsg, h1, h2, String.data_append, List.append_assoc]

/-- Claim C2 (amended): assigning `x.k = v` on a frozen instance always
raises the immutability violation with the message of `cannotSetMsg`,
which names the attribute `k` and suggests the out-of-place form
`.at['k'].set(v)`, and leaves the instance unchanged.  (The original
claim also asserted the message names the instance type; it does not,
see `claim_C2_immutability_message_counterexample`.) -/
theorem claim_C2_frozen_setattr_rejected (tree : TreeState) (key : String)
    (value : AVal) (hf : tree.frozen = true) :
    setattrT tree key value = .error (cannotSetMsg key value) ∧
    Mentions (cannotSetMsg key value) key ∧
    Mentions (cannotSetMsg key value)
      (".at[\x27" ++ key ++ "\x27].set(" ++ value.pyRepr ++ ")") ∧
    runSetattr tree key value = tree := by
  refine ⟨by simp [setattrT, hf], cannotSetMsg_mentions_key key value,
    cannotSetMsg_mentions_at_form key value, ?_⟩
  simp [runSetattr, setattrT, hf]

/-- Concrete instantiation of `claim_C2_frozen_setattr_rejected` for a
frozen instance of type `Tree` and the assignment `x.a = 1`. -/
theorem claim_C2_frozen_setattr_rejected_witness :
    setattrT ⟨"Tree", true, [], []⟩ "a" (.intv 1) =
      .error (cannotSetMsg "a" (.intv 1)) ∧
    runSetattr ⟨"Tree", true, [], []⟩ "a" (.intv 1) = ⟨"Tree", true, [], []⟩ := by
  have h := claim_C2_frozen_setattr_rejected ⟨"Tree", true, [], []⟩ "a" (.intv 1) rfl
  exact ⟨h.1, h.2.2.2⟩

/-- Counterexample to claim C2 as stated: the immutability-violation
message does not name the instance type.  For a frozen instance of a
class named `Tree`, the raised message is `Cannot set a=1. Use
`.at['a'].set(1)` instead.`, in which `Tree` does not occur. -/
theorem claim_C2_immutability_message_counterexample :
    setattrT ⟨"Tree", true, [], []⟩ "a" (.intv 1) =
      .error "Cannot set a=1. Use `.at[\x27a\x27].set(1)` instead." ∧
    ¬ Mentions "Cannot set a=1. Use `.at[\x27a\x27].set(1)` instead." "Tree" := by
  constructor
  · rfl
  · decide

/-! ## Construction protocol and the completeness check

Source: `src/pytreeclass/_src/tree_base.py`, `_new_wrapper` (lines
148-165) and `_init_wrapper` (lines 198-238); the generated initializer
follows `_patch_init_method` in `src/pytreeclass/_src/tree_decorator.py`
(lines 146-211). -/

/-- Field descriptor members consulted during construction.  `default =
none` is the not-set sentinel; `default_factory` is modelled by the
value the zero-argument factory returns (`none` when absent). -/
structure CField where
  name : String
  default : Option AVal := none
  default_factory : Option AVal := none
  init : Bool := true
deriving DecidableEq, Repr

/-- One step of the default-population loop of `_new_wrapper` (lines
152-156): a field with a `default` is written to the fresh instance's
variables, otherwise a field with a `default_factory` is written with
the factory's value. -/
def newWrapperStep (vars : List (String × AVal)) (f : CField) :
    List (String × AVal) :=
  match f.default with
  | some d => dictInsert vars f.name d
  | none =>
      match f.default_factory with
      | some v => dictInsert vars f.name v
      | none => vars

/-- Embeds the default-population loop of `_new_wrapper`: instance
variables of a freshly `__new__`-ed instance. -/
def newWrapperVars (fields : List CField) : List (String × AVal) :=
  fields.foldl newWrapperStep []

/-- Embeds the uninitialized-field loop of `_init_wrapper` (lines
225-230): the first declared field missing from the instance variables
raises `field=`name`` is not initialized.`. -/
def completenessCheck (fields : List CField) (vars : List (String × AVal)) :
    Except String (List (String × AVal)) :=
  match fields.find? (fun f => (alookup vars f.name).isNone) with
  | some f => .error ("field=`" ++ f.name ++ "` is not initialized.")
  | none => .ok vars

/-- Embeds construction (`__new__` wrapper, then `__init__` plus the
post-init hook, then the completeness gate).  The writes performed by
the user's `__init__` and `__post_init__` bodies are abstracted into the
ordered assignment list `initAssigns`; on success the frozen instance's
variables are returned, on failure no instance is produced. -/
def constructInstance (fields : List CField)
    (initAssigns : List (String × AVal)) :
    Except String (List (String × AVal)) :=
  let vars := initAssigns.foldl (fun vs p => dictInsert vs p.1 p.2)
    (newWrapperVars fields)
  completenessCheck fields vars

/-- Embeds the body generated by `_patch_init_method` when the class
defines no `__init__`: parameters follow field order; a passed argument
is assigned to its field; an absent argument falls back to the field's
default or factory value; a missing required argument is a call-time
`TypeError`.  Fields with `init=False` are assigned their
default/factory directly in the body. -/
def generatedInitAssigns (fields : List CField)
    (passed : List (String × AVal)) :
    Except String (List (String × AVal)) :=
  fields.foldlM
    (fun acc f =>
      if f.init then
        match alookup passed f.name with
        | some v => .ok (acc ++ [(f.name, v)])
        | none =>
            match f.default with
            | some d => .ok (acc ++ [(f.name, d)])
            | none =>
                match f.default_factory with
                | some v => .ok (acc ++ [(f.name, v)])
                | none => .error ("missing required argument: " ++ f.name)
      else
        match f.default with
        | some d => .ok (acc ++ [(f.name, d)])
        | none =>
            match f.default_factory with
            | some v => .ok (acc ++ [(f.name, v)])
            | none => .ok acc)
    []

theorem alookup_foldl_dictInsert_not_mem (pairs : List (String × AVal))
    (k : String) (hk : k ∉ pairs.map Prod.fst) :
    ∀ vs, alookup (pairs.foldl (fun vs p => dictInsert vs p.1 p.2) vs) k =
      alookup vs k := by
  induction pairs with
  | nil => intro vs; rfl
  | cons p rest ih =>
      intro vs
      have hkp : k ≠ p.1 := fun h => hk (by simp [h])
      rw [List.foldl_cons, ih (fun h => hk (by simp [h])),
        alookup_dictInsert_ne _ _ hkp]

theorem alookup_newWrapperStep_ne (vs : List (String × AVal)) (f : CField)
    (k : String) (hk : k ≠ f.name) :
    alookup (newWrapperStep vs f) k = alookup vs k := by
  unfold newWrapperStep
  cases f.default with
  | some d => exact alookup_dictInsert_ne _ _ hk
  | none =>
      cases f.default_factory with
      | some v => exact alookup_dictInsert_ne _ _ hk
      | none => rfl

theorem alookup_foldl_newWrapperStep_not_mem (fs : List CField) (k : String)
    (hk : k ∉ fs.map CField.name) :
    ∀ vs, alookup (fs.foldl newWrapperStep vs) k = alookup vs k := by
  induction fs with
  | nil => intro vs; rfl
  | cons f rest ih =>
      intro vs
      rw [List.foldl_cons, ih (fun h => hk (by simp [h])),
        alookup_newWrapperStep_ne _ _ _ (fun h => hk (by simp [h]))]

theorem alookup_newWrapperVars_required (fields : List CField)
    (hnd : (fields.map CField.name).Nodup) (a : CField) (ha : a ∈ fields)
    (hd : a.default = none) (hf : a.default_factory = none) :
    alookup (newWrapperVars fields) a.name = none := by
  have main : ∀ fs : List CField, (fs.map CField.name).Nodup → a ∈ fs →
      ∀ vs, alookup vs a.name = none →
        alookup (fs.foldl newWrapperStep vs) a.name = none := by
    intro fs
    induction fs with
    | nil => intro _ h; simp at h
    | cons f rest ih =>
        intro hnd2 hmem vs hvs
        simp only [List.map_cons, List.nodup_cons] at hnd2
        rcases List.mem_cons.mp hmem with rfl | hmem2
        · rw [List.foldl_cons,
            alookup_foldl_newWrapperStep_not_mem rest a.name hnd2.1]
          unfold newWrapperStep
          rw [hd, hf]
          exact hvs
        · have hfa : f.name ≠ a.name := by
            intro h
            exact hnd2.1 (h ▸ List.mem_map_of_mem CField.name hmem2)
          rw [List.foldl_cons]
          exact ih hnd2.2 hmem2 _
            (by rw [alookup_newWrapperStep_ne _ _ _ (Ne.symm hfa)]; exact hvs)
  exact main fields hnd ha [] rfl

/-- Claim C4: construction of a class with a required field `a` (no
default, no factory) fails with the incompleteness error when `a` is
never assigned by `__init__` or the post-init hook, returning no
instance; and construction of the two-field class `a` (required), `b`
(default `d`) through the generated initializer passing only `a`
succeeds with `b` bound to its default. -/
theorem claim_C4_construction_completeness :
    (∀ (fields : List CField) (assigns : List (String × AVal)) (a : CField),
      (fields.map CField.name).Nodup → a ∈ fields →
      a.default = none → a.default_factory = none →
      a.name ∉ assigns.map Prod.fst →
      ∃ k, constructInstance fields assigns =
        .error ("field=`" ++ k ++ "` is not initialized.")) ∧
    (∀ (na nb : String) (d v : AVal), na ≠ nb →
      ∃ assigns vars,
        generatedInitAssigns
          [{ name := na }, { name := nb, default := some d }] [(na, v)] =
            .ok assigns ∧
        constructInstance
          [{ name := na }, { name := nb, default := some d }] assigns =
            .ok vars ∧
        alookup vars na = some v ∧ alookup vars nb = some d) := by
  constructor
  · intro fields assigns a hnd ha hd hf hassign
    have hnone :
        alookup (assigns.foldl (fun vs p => dictInsert vs p.1 p.2)
          (newWrapperVars fields)) a.name = none := by
      rw [alookup_foldl_dictInsert_not_mem assigns a.name hassign,
        alookup_newWrapperVars_required fields hnd a ha hd hf]
    have hex : (fields.find?
        (fun f => (alookup (assigns.foldl (fun vs p => dictInsert vs p.1 p.2)
          (newWrapperVars fields)) f.name).isNone)).isSome := by
      rw [List.find?_isSome]
      exact ⟨a, ha, by simp [hnone]⟩
    obtain ⟨f0, hf0⟩ := Option.isSome_iff_exists.mp hex
    exact ⟨f0.name, by simp [constructInstance, completenessCheck, hf0]⟩
  · intro na nb d v hne
    refine ⟨[(na, v), (nb, d)], [(nb, d), (na, v)], ?_, ?_, ?_, ?_⟩
    · simp [generatedInitAssigns, List.foldlM_cons, List.foldlM_nil, alookup,
        hne, Ne.symm hne, bind, Except.bind, pure, Except.pure]
    · simp [constructInstance, newWrapperVars, newWrapperStep, List.foldl_cons,
        completenessCheck, dictInsert, alookup, hne, Ne.symm hne, List.find?]
    · simp [alookup, Ne.symm hne]
    · simp [alookup]

/-- Concrete instantiation of `claim_C4_construction_completeness`: the
class with the single required field `a` fails an empty construction,
and the class `a` required, `b = 2` built with only `a = 5` yields
`b = 2`. -/
theorem claim_C4_construction_completeness_witness :
    (∃ k, constructInstance [{ name := "a" }] [] =
      .error ("field=`" ++ k ++ "` is not initialized.")) ∧
    (∃ assigns vars,
      generatedInitAssigns
        [{ name := "a" }, { name := "b", default := some (.intv 2) }]
        [("a", .intv 5)] = .ok assigns ∧
      constructInstance
        [{ name := "a" }, { name := "b", default := some (.intv 2) }]
        assigns = .ok vars ∧
      alookup vars "a" = some (.intv 5) ∧
      alookup vars "b" = some (.intv 2)) :=
  ⟨claim_C4_construction_completeness.1 [{ name := "a" }] [] { name := "a" }
      (by simp) (by simp) rfl rfl (by simp),
    claim_C4_construction_completeness.2 "a" "b" (.intv 2) (.intv 5)
      (by decide)⟩

/-! ## Flatten partition per effective field descriptor

Source: `src/pytreeclass/_src/tree_util.py`, `_tree_structure` (lines
108-124) and `_tree_fields` (lines 137-152); the partition is consumed
by the flatten rule of this revision.  Field metadata is modelled by the
three keys the sources ever query (`static`, `nondiff`, `frozen`),
absent keys reading as `false` (`metadata.get(key, False)`). -/

/-- Metadata of a field, restricted to the queried keys. -/
structure Meta where
  static : Bool := false
  nondiff : Bool := false
  frozen : Bool := false
deriving DecidableEq, Repr

/-- A `dataclasses` field as used by `tree_util.py`/`misc.py`: only the
name and metadata are consulted by the structural transform (the other
members — default, repr, init, compare — are carried around unchanged
and are irrelevant to the claims). -/
structure UField where
  name : String
  metadata : Meta := {}
deriving DecidableEq, Repr

/-- A treeclass instance with no nested treeclass values, as
`_tree_structure` sees it: the class-level field map
(`__dataclass_fields__`), the per-instance override table
(`__undeclared_fields__`), and the attribute bag (`__dict__`). -/
structure FlatTree where
  dataclassFields : List (String × UField)
  undeclaredFields : List (String × UField)
  attrs : List (String × AVal)
deriving Repr

/-- Embeds `_tree_fields` (lines 137-152): the class field map, shadowed
by the override table when the latter is nonempty, via the Python merge
`dict(a, **b)` semantics. -/
def treeFields (t : FlatTree) : List (String × UField) :=
  if t.undeclaredFields = [] then t.dataclassFields
  else dictMerge t.dataclassFields t.undeclaredFields

/-- Specification-side effective descriptor, written from the claim: an
override-table entry takes precedence over the class-level field map. -/
def effectiveField (t : FlatTree) (k : String) : Option UField :=
  match alookup t.undeclaredFields k with
  | some f => some f
  | none => alookup t.dataclassFields k

/-- Result of `_tree_structure`: the dynamic dict, the static attribute
entries, and the override table stored under the
`__undeclared_fields__` key of the static dict. -/
structure TreeStructureR where
  dynamic : List (String × AVal)
  staticAttrs : List (String × AVal)
  undeclaredTable : List (String × UField)
deriving Repr

/-- One iteration of the field scan of `_tree_structure` (lines
119-123): route the attribute value into the static or dynamic dict
according to `field_item.metadata.get("static", False)`; a missing
attribute is an `AttributeError` (`none`). -/
def structStep (attrs : List (String × AVal))
    (acc : List (String × AVal) × List (String × AVal)) (p : String × UField) :
    Option (List (String × AVal) × List (String × AVal)) :=
  match alookup attrs p.2.name with
  | none => none
  | some v =>
      if p.2.metadata.static then some (acc.1, dictInsert acc.2 p.2.name v)
      else some (dictInsert acc.1 p.2.name v, acc.2)

/-- Embeds `_tree_structure` (lines 108-124). -/
def treeStructure (t : FlatTree) : Option TreeStructureR :=
  ((treeFields t).foldlM (structStep t.attrs) ([], [])).map
    (fun acc => ⟨acc.1, acc.2, t.undeclaredFields⟩)

theorem alookup_none_of_not_mem {α : Type} (xs : List (String × α)) (k : String)
    (h : k ∉ xs.map Prod.fst) : alookup xs k = none := by
  induction xs with
  | nil => rfl
  | cons p rest ih =>
      have : p.1 ≠ k := fun he => h (by simp [he])
      simp only [alookup, this, if_false]
      exact ih (fun hm => h (by simp [hm]))

theorem mem_dictInsert {α : Type} (xs : List (String × α)) (k : String) (v : α)
    (p : String × α) (h : p ∈ dictInsert xs k v) : p ∈ xs ∨ p = (k, v) := by
  induction xs with
  | nil => simp [dictInsert] at h; exact Or.inr h
  | cons q rest ih =>
      by_cases hq : q.1 = k
      · simp only [dictInsert, hq, if_true] at h
        rcases List.mem_cons.mp h with rfl | h2
        · exact Or.inr (by rw [← hq])
        · exact Or.inl (List.mem_cons_of_mem _ h2)
      · simp only [dictInsert, hq, if_false] at h
        rcases List.mem_cons.mp h with rfl | h2
        · exact Or.inl (by simp)
        · rcases ih h2 with h3 | h3
          · exact Or.inl (List.mem_cons_of_mem _ h3)
          · exact Or.inr h3

theorem alookup_dictMerge {α : Type} (a b : List (String × α))
    (hnd : (b.map Prod.fst).Nodup) (k : String) :
    alookup (dictMerge a b) k =
      match alookup b k with
      | some v => some v
      | none => alookup a k := by
  induction b generalizing a with
  | nil => simp [dictMerge, alookup]
  | cons p rest ih =>
      obtain ⟨k0, v0⟩ := p
      simp only [List.map_cons, List.nodup_cons] at hnd
      have : dictMerge a ((k0, v0) :: rest) =
          rest.foldl (fun acc q => dictInsert acc q.1 q.2) (dictInsert a k0 v0) := by
        simp [dictMerge, List.foldl_cons]
      rw [this]
      have ih2 := ih (dictInsert a k0 v0) hnd.2
      rw [show rest.foldl (fun acc q => dictInsert acc q.1 q.2) (dictInsert a k0 v0) =
        dictMerge (dictInsert a k0 v0) rest from rfl] at this ⊢
      rw [ih2]
      by_cases hk : k0 = k
      · subst hk
        have : alookup rest k0 = none :=
          alookup_none_of_not_mem _ _ hnd.1
        simp [this, alookup, alookup_dictInsert_self]
      · simp only [alookup, hk, if_false]
        cases alookup rest k with
        | some v => rfl
        | none => exact alookup_dictInsert_ne _ _ (fun he => hk he.symm)

theorem alookup_some_mem {α : Type} (xs : List (String × α)) (k : String) (v : α)
    (h : alookup xs k = some v) : (k, v) ∈ xs := by
  induction xs with
  | nil => simp [alookup] at h
  | cons p rest ih =>
      by_cases hp : p.1 = k
      · simp only [alookup, hp, if_true, Option.some.injEq] at h
        have hkv : (k, v) = p := by rw [← hp, ← h]
        rw [hkv]
        exact List.mem_cons_self p rest
      · simp only [alookup, hp, if_false] at h
        exact List.mem_cons_of_mem _ (ih h)

/-- Effective-descriptor refinement: the merged field dict built by
`_tree_fields` looks up exactly the claim's effective descriptor, the
override table taking precedence over the class-level map. -/
theorem treeFields_effective (t : FlatTree)
    (hnd : (t.undeclaredFields.map Prod.fst).Nodup) (k : String) :
    alookup (treeFields t) k = effectiveField t k := by
  unfold treeFields effectiveField
  by_cases h : t.undeclaredFields = []
  · simp [h, alookup]
  · rw [if_neg h, alookup_dictMerge _ _ hnd]
    cases alookup t.undeclaredFields k <;> rfl

theorem structFold_frame (attrs : List (String × AVal)) :
    ∀ (fields : List (String × UField))
      (acc : List (String × AVal) × List (String × AVal))
      (d s : List (String × AVal)),
      fields.foldlM (structStep attrs) acc = some (d, s) →
      ∀ k, k ∉ fields.map (fun p => p.2.name) →
        alookup d k = alookup acc.1 k ∧ alookup s k = alookup acc.2 k := by
  intro fields
  induction fields with
  | nil =>
      intro acc d s h k _
      simp only [List.foldlM_nil] at h
      obtain rfl := Option.some.inj h
      exact ⟨rfl, rfl⟩
  | cons q rest ih =>
      intro acc d s h k hk
      simp only [List.foldlM_cons] at h
      cases hstep : structStep attrs acc q with
      | none => rw [hstep] at h; simp [bind] at h
      | some acc2 =>
          rw [hstep] at h
          simp only [bind, Option.bind_some] at h
          have hkq : k ≠ q.2.name := fun he => hk (by simp [he])
          have hfr := ih acc2 d s h k (fun hm => hk (by simp [hm]))
          cases hattr : alookup attrs q.2.name with
          | none => simp [structStep, hattr] at hstep
          | some v =>
              simp only [structStep, hattr] at hstep
              by_cases hst : q.2.metadata.static
              · rw [if_pos hst] at hstep
                have hacc2 := Option.some.inj hstep
                subst hacc2
                exact ⟨hfr.1, by rw [hfr.2, alookup_dictInsert_ne _ _ hkq]⟩
              · rw [if_neg hst] at hstep
                have hacc2 := Option.some.inj hstep
                subst hacc2
                exact ⟨by rw [hfr.1, alookup_dictInsert_ne _ _ hkq], hfr.2⟩

theorem structFold_member (attrs : List (String × AVal)) :
    ∀ (fields : List (String × UField))
      (acc : List (String × AVal) × List (String × AVal))
      (d s : List (String × AVal)),
      (fields.map (fun p => p.2.name)).Nodup →
      fields.foldlM (structStep attrs) acc = some (d, s) →
      ∀ p ∈ fields,
        (p.2.metadata.static = true →
          alookup s p.2.name = alookup attrs p.2.name ∧
          alookup d p.2.name = alookup acc.1 p.2.name) ∧
        (p.2.metadata.static = false →
          alookup d p.2.name = alookup attrs p.2.name ∧
          alookup s p.2.name = alookup acc.2 p.2.name) := by
  intro fields
  induction fields with
  | nil => intro acc d s _ _ p hp; simp at hp
  | cons q rest ih =>
      intro acc d s hnd h p hp
      simp only [List.map_cons, List.nodup_cons] at hnd
      simp only [List.foldlM_cons] at h
      cases hstep : structStep attrs acc q with
      | none => rw [hstep] at h; simp [bind] at h
      | some acc2 =>
          rw [hstep] at h
          simp only [bind, Option.bind_some] at h
          cases hattr : alookup attrs q.2.name with
          | none => simp [structStep, hattr] at hstep
          | some v =>
              simp only [structStep, hattr] at hstep
              rcases List.mem_cons.mp hp with rfl | hp2
              · -- the field processed by this step
                have hfr := structFold_frame attrs rest acc2 d s h p.2.name hnd.1
                by_cases hst : p.2.metadata.static
                · rw [if_pos hst] at hstep
                  have hacc2 := Option.some.inj hstep
                  subst hacc2
                  refine ⟨fun _ => ⟨?_, hfr.1⟩,
                    fun hc => by rw [hc] at hst; cases hst⟩
                  rw [hfr.2, alookup_dictInsert_self, hattr]
                · rw [if_neg hst] at hstep
                  have hacc2 := Option.some.inj hstep
                  subst hacc2
                  refine ⟨fun hc => absurd hc hst, fun _ => ⟨?_, hfr.2⟩⟩
                  rw [hfr.1, alookup_dictInsert_self, hattr]
              · -- the field sits further down: its name differs from q's
                have hpq : p.2.name ≠ q.2.name := by
                  intro he
                  exact hnd.1 (he ▸ List.mem_map.mpr ⟨p, hp2, rfl⟩)
                have hmem := ih acc2 d s hnd.2 h p hp2
                by_cases hst : q.2.metadata.static
                · rw [if_pos hst] at hstep
                  have hacc2 := Option.some.inj hstep
                  subst hacc2
                  refine ⟨fun hc => ⟨(hmem.1 hc).1, (hmem.1 hc).2⟩,
                    fun hc => ⟨(hmem.2 hc).1, ?_⟩⟩
                  rw [(hmem.2 hc).2, alookup_dictInsert_ne _ _ hpq]
                · rw [if_neg hst] at hstep
                  have hacc2 := Option.some.inj hstep
                  subst hacc2
                  refine ⟨fun hc => ⟨(hmem.1 hc).1, ?_⟩,
                    fun hc => ⟨(hmem.2 hc).1, (hmem.2 hc).2⟩⟩
                  rw [(hmem.1 hc).2, alookup_dictInsert_ne _ _ hpq]

/-- Claim C3: `_tree_structure` partitions the instance's field
attributes into dynamic leaves and a static residual strictly according
to the effective field descriptor's `static` metadata flag, where an
override-table entry takes precedence over the class-level field map,
and the static residual carries the override table itself. -/
theorem claim_C3_flatten_partition (t : FlatTree)
    (hndU : (t.undeclaredFields.map Prod.fst).Nodup)
    (hndF : ((treeFields t).map (fun p => p.2.name)).Nodup)
    (s : TreeStructureR) (hs : treeStructure t = some s) :
    (∀ k, alookup (treeFields t) k = effectiveField t k) ∧
    s.undeclaredTable = t.undeclaredFields ∧
    (∀ k f, effectiveField t k = some f → f.name = k →
      (f.metadata.static = true →
        alookup s.staticAttrs k = alookup t.attrs k ∧
        alookup s.dynamic k = none) ∧
      (f.metadata.static = false →
        alookup s.dynamic k = alookup t.attrs k ∧
        alookup s.staticAttrs k = none)) := by
  obtain ⟨acc, hacc, hmk⟩ := Option.map_eq_some'.mp hs
  obtain ⟨d0, s0⟩ := acc
  refine ⟨treeFields_effective t hndU, by rw [← hmk], ?_⟩
  intro k f heff hname
  have hlk : alookup (treeFields t) k = some f := by
    rw [treeFields_effective t hndU k, heff]
  have hmem := structFold_member t.attrs (treeFields t) ([], []) d0 s0 hndF hacc
    (k, f) (alookup_some_mem _ _ _ hlk)
  simp only at hmem
  rw [hname] at hmem
  constructor
  · intro hst
    obtain ⟨h1, h2⟩ := hmem.1 hst
    rw [← hmk]
    exact ⟨h1, by simpa [alookup] using h2⟩
  · intro hst
    obtain ⟨h1, h2⟩ := hmem.2 hst
    rw [← hmk]
    exact ⟨h1, by simpa [alookup] using h2⟩

/-- Concrete instantiation of `claim_C3_flatten_partition`: a class
field `w` (dynamic) and an override entry marking `b` static route `w`
to the dynamic dict and `b` to the static residual. -/
theorem claim_C3_flatten_partition_witness :
    ∃ s, treeStructure
      ⟨[("w", ⟨"w", {}⟩), ("b", ⟨"b", {}⟩)],
        [("b", ⟨"b", { static := true, nondiff := true }⟩)],
        [("w", .intv 1), ("b", .intv 2)]⟩ = some s ∧
    alookup s.dynamic "w" = some (.intv 1) ∧
    alookup s.staticAttrs "b" = some (.intv 2) ∧
    alookup s.dynamic "b" = none := by
  refine ⟨⟨[("w", .intv 1)], [("b", .intv 2)],
    [("b", ⟨"b", { static := true, nondiff := true }⟩)]⟩, ?_, ?_⟩
  · rfl
  · have h := claim_C3_flatten_partition
      ⟨[("w", ⟨"w", {}⟩), ("b", ⟨"b", {}⟩)],
        [("b", ⟨"b", { static := true, nondiff := true }⟩)],
        [("w", .intv 1), ("b", .intv 2)]⟩
      (by simp) (by decide)
      ⟨[("w", .intv 1)], [("b", .intv 2)],
        [("b", ⟨"b", { static := true, nondiff := true }⟩)]⟩ rfl
    refine ⟨?_, ?_, ?_⟩
    · exact ((h.2.2 "w" ⟨"w", {}⟩ (by simp [effectiveField, alookup]) rfl).2 rfl).1
    · exact ((h.2.2 "b" ⟨"b", { static := true, nondiff := true }⟩
        (by simp [effectiveField, alookup]) rfl).1 rfl).1
    · exact ((h.2.2 "b" ⟨"b", { static := true, nondiff := true }⟩
        (by simp [effectiveField, alookup]) rfl).1 rfl).2

/-! ## Recursive flatten/unflatten round trip

Source: `src/pytreeclass/_src/treeclass.py`, `_flatten` (lines 181-192)
and `_unflatten` (lines 195-201), composed recursively by the host
framework's `jax.tree_util` machinery (dynamic children are flattened
recursively; static values are carried inside the treedef verbatim).
An instance is a class name, the declared dataclass fields in
declaration order (each tagged `true` when it is dynamic, i.e. not a
`NonDiffField`), and the attribute bag `__dict__` in insertion order. -/

mutual

/-- A runtime value: an opaque leaf or a treeclass instance. -/
inductive PVal where
  | atom : Int → PVal
  | obj : PObj → PVal
deriving DecidableEq, Repr

/-- A treeclass instance: class name, declared fields (name, tagged
dynamic), attribute bag. -/
inductive PObj where
  | mk : String → List (String × Bool) → PAttrs → PObj
deriving DecidableEq, Repr

/-- An attribute bag, in insertion order. -/
inductive PAttrs where
  | anil : PAttrs
  | acons : String → PVal → PAttrs → PAttrs
deriving DecidableEq, Repr

end

mutual

/-- Treedef of a value: a leaf position, or an instance node carrying
the class name, the declared fields, the dynamic children treedefs (in
field order) and the static remainder of the attribute bag verbatim. -/
inductive PTd where
  | atomTd : PTd
  | objTd : String → List (String × Bool) → PDyn → PAttrs → PTd
deriving DecidableEq, Repr

/-- Ordered dynamic entries of an instance treedef. -/
inductive PDyn where
  | dnil : PDyn
  | dcons : String → PTd → PDyn → PDyn
deriving DecidableEq, Repr

end

/-- Attribute lookup (dict access on `__dict__`). -/
def alookupA : PAttrs → String → Option PVal
  | .anil, _ => none
  | .acons n v rest, k => if n = k then some v else alookupA rest k

/-- Keys of an attribute bag, in order. -/
def attrKeys : PAttrs → List String
  | .anil => []
  | .acons n _ rest => n :: attrKeys rest

/-- Concatenation of attribute bags (`dict.update` with disjoint keys
appends in order). -/
def aappend : PAttrs → PAttrs → PAttrs
  | .anil, b => b
  | .acons n v rest, b => .acons n v (aappend rest b)

/-- Drop every attribute whose key is listed (`dict.pop` of the dynamic
names from the static copy). -/
def removeKeys (ks : List String) : PAttrs → PAttrs
  | .anil => .anil
  | .acons n v rest =>
      if n ∈ ks then removeKeys ks rest else .acons n v (removeKeys ks rest)

/-- Names of the dynamic declared fields, in declaration order. -/
def dynNames (fields : List (String × Bool)) : List String :=
  (fields.filter (fun p => p.2)).map Prod.fst

/-- Boolean no-duplicates check on key lists. -/
def nodupB : List String → Bool
  | [] => true
  | x :: xs => !(xs.contains x) && nodupB xs

/-- The dynamic (name, value) entries of `_flatten`: scan declared
fields in order; a dynamic field contributes its attribute value.  (The
source pops the value out of the static copy and raises when it is
missing; the model skips a missing name, and well-formedness below rules
that case out.) -/
def collectDynVals (fields : List (String × Bool)) (attrs : PAttrs) :
    List (String × PVal) :=
  fields.filterMap
    (fun p => if p.2 then (alookupA attrs p.1).map (fun v => (p.1, v)) else none)

/-- Pack named treedefs into a `PDyn`. -/
def toPDyn : List (String × PTd) → PDyn
  | [] => .dnil
  | (n, td) :: rest => .dcons n td (toPDyn rest)

mutual

/-- Recursive flatten of a value: its leaf sequence and treedef
(`jax.tree_util.tree_flatten` driven by the `_flatten` rule). -/
def pvalFlat : PVal → List Int × PTd
  | .atom i => ([i], .atomTd)
  | .obj o => pobjFlat o

/-- Embeds `_flatten` (lines 181-192) composed with the host recursion:
the static copy of `__dict__` loses the dynamic fields (popped in field
order); each dynamic value is flattened recursively; the treedef records
the dynamic names with their child treedefs plus the static rest. -/
def pobjFlat : PObj → List Int × PTd
  | .mk cn fields attrs =>
      let recs := pattrsFlat attrs
      let dyn := fields.filterMap
        (fun p => if p.2 then (alookup recs p.1).map (fun r => (p.1, r)) else none)
      ((dyn.map (fun p => p.2.1)).flatten,
        .objTd cn fields (toPDyn (dyn.map (fun p => (p.1, p.2.2))))
          (removeKeys (dynNames fields) attrs))

/-- Recursive flatten of every attribute value, keyed by name. -/
def pattrsFlat : PAttrs → List (String × (List Int × PTd))
  | .anil => []
  | .acons n v rest => (n, pvalFlat v) :: pattrsFlat rest

end

mutual

/-- Embeds `_unflatten` (lines 195-201) composed with the host
recursion: rebuild the dynamic children from their treedefs, consuming
the leaf list; install the dynamic attributes first, then the static
dict (`__dict__.update` twice on a fresh object). -/
def pvalUnflat : PTd → List Int → Option (PVal × List Int)
  | .atomTd, l :: rest => some (.atom l, rest)
  | .atomTd, [] => none
  | .objTd cn fields dyn stat, ls =>
      match pdynUnflat dyn ls with
      | none => none
      | some (dynAttrs, rest) =>
          some (.obj (.mk cn fields (aappend dynAttrs stat)), rest)

/-- Rebuild the named dynamic attributes from their treedefs in order. -/
def pdynUnflat : PDyn → List Int → Option (PAttrs × List Int)
  | .dnil, ls => some (.anil, ls)
  | .dcons n td rest, ls =>
      match pvalUnflat td ls with
      | none => none
      | some (v, ls2) =>
          match pdynUnflat rest ls2 with
          | none => none
          | some (a2, ls3) => some (.acons n v a2, ls3)

end

mutual

/-- Well-formedness of a value: every reachable instance is
well-formed. -/
def pvalWF : PVal → Bool
  | .atom _ => true
  | .obj o => pobjWF o

/-- Well-formedness of an instance: dynamic field names are distinct
(field maps are dicts), every dynamic field has an attribute (the
construction completeness gate guarantees this), and all attribute
values are well-formed. -/
def pobjWF : PObj → Bool
  | .mk _ fields attrs =>
      nodupB (dynNames fields) &&
      (dynNames fields).all (fun n => (alookupA attrs n).isSome) &&
      pattrsWF attrs

/-- Well-formedness of every attribute value. -/
def pattrsWF : PAttrs → Bool
  | .anil => true
  | .acons _ v rest => pvalWF v && pattrsWF rest

end

/-- Attribute bag as a list of (name, value) pairs. -/
def toPairs : PAttrs → List (String × PVal)
  | .anil => []
  | .acons n v rest => (n, v) :: toPairs rest

theorem toPairs_map_fst : ∀ (a : PAttrs), (toPairs a).map Prod.fst = attrKeys a
  | .anil => rfl
  | .acons n v rest => by simp [toPairs, attrKeys, toPairs_map_fst rest]

theorem alookup_toPairs : ∀ (a : PAttrs) (k : String),
    alookup (toPairs a) k = alookupA a k
  | .anil, _ => rfl
  | .acons n v rest, k => by
      by_cases h : n = k <;>
        simp [toPairs, alookup, alookupA, h, alookup_toPairs rest k]

theorem alookup_pattrsFlat : ∀ (a : PAttrs) (k : String),
    alookup (pattrsFlat a) k = (alookupA a k).map pvalFlat
  | .anil, _ => rfl
  | .acons n v rest, k => by
      by_cases h : n = k <;>
        simp [pattrsFlat, alookup, alookupA, h, alookup_pattrsFlat rest k]

theorem alookupA_aappend : ∀ (a b : PAttrs) (k : String),
    alookupA (aappend a b) k =
      match alookupA a k with
      | some v => some v
      | none => alookupA b k
  | .anil, b, k => by simp [aappend, alookupA]
  | .acons n v rest, b, k => by
      by_cases h : n = k <;>
        simp [aappend, alookupA, h, alookupA_aappend rest b k]

theorem alookupA_removeKeys_mem (ks : List String) :
    ∀ (a : PAttrs) (k : String), k ∈ ks → alookupA (removeKeys ks a) k = none
  | .anil, _, _ => rfl
  | .acons n v rest, k, h => by
      by_cases hn : n ∈ ks
      · simp [removeKeys, hn, alookupA_removeKeys_mem ks rest k h]
      · have hne : n ≠ k := fun he => hn (he ▸ h)
        simp [removeKeys, hn, alookupA, hne, alookupA_removeKeys_mem ks rest k h]

theorem removeKeys_aappend (ks : List String) :
    ∀ (a b : PAttrs),
      removeKeys ks (aappend a b) = aappend (removeKeys ks a) (removeKeys ks b)
  | .anil, b => rfl
  | .acons n v rest, b => by
      by_cases hn : n ∈ ks <;>
        simp [aappend, removeKeys, hn, removeKeys_aappend ks rest b]

theorem removeKeys_idem (ks : List String) :
    ∀ (a : PAttrs), removeKeys ks (removeKeys ks a) = removeKeys ks a
  | .anil => rfl
  | .acons n v rest => by
      by_cases hn : n ∈ ks <;> simp [removeKeys, hn, removeKeys_idem ks rest]

theorem removeKeys_eq_anil (ks : List String) :
    ∀ (a : PAttrs), (∀ k ∈ attrKeys a, k ∈ ks) → removeKeys ks a = .anil
  | .anil, _ => rfl
  | .acons n v rest, h => by
      have hn : n ∈ ks := h n (by simp [attrKeys])
      simp only [removeKeys, hn, if_true]
      exact removeKeys_eq_anil ks rest (fun k hk => h k (by simp [attrKeys, hk]))

theorem alookupA_isSome_iff_mem : ∀ (a : PAttrs) (k : String),
    (alookupA a k).isSome = true ↔ k ∈ attrKeys a
  | .anil, k => by simp [alookupA, attrKeys]
  | .acons n v rest, k => by
      by_cases h : n = k
      · simp [alookupA, attrKeys, h]
      · simp only [alookupA, h, if_false, attrKeys, List.mem_cons,
          alookupA_isSome_iff_mem rest k]
        constructor
        · exact Or.inr
        · rintro (he | hm)
          · exact absurd he.symm h
          · exact hm

theorem nodupB_iff (l : List String) : nodupB l = true ↔ l.Nodup := by
  induction l with
  | nil => simp [nodupB]
  | cons x xs ih =>
      simp [nodupB, List.nodup_cons, ih, List.elem_iff]

theorem collectDynVals_map_fst (fields : List (String × Bool)) (a : PAttrs) :
    (collectDynVals fields a).map Prod.fst =
      (dynNames fields).filter (fun n => (alookupA a n).isSome) := by
  induction fields with
  | nil => rfl
  | cons p rest ih =>
      obtain ⟨n, b⟩ := p
      cases b with
      | false =>
          simp only [collectDynVals, dynNames, List.filterMap_cons] at ih ⊢
          simpa [List.filter_cons] using ih
      | true =>
          simp only [collectDynVals, dynNames, List.filterMap_cons] at ih ⊢
          cases h : alookupA a n with
          | none => simpa [List.filter_cons, h] using ih
          | some v => simpa [List.filter_cons, h] using ih

theorem dynNames_cons_true (m : String) (rest : List (String × Bool)) :
    dynNames ((m, true) :: rest) = m :: dynNames rest := by
  simp [dynNames, List.filter_cons]

theorem dynNames_cons_false (m : String) (rest : List (String × Bool)) :
    dynNames ((m, false) :: rest) = dynNames rest := by
  simp [dynNames, List.filter_cons]

theorem alookup_collectDynVals (fields : List (String × Bool)) (a : PAttrs)
    (hnd : (dynNames fields).Nodup) (n : String) :
    alookup (collectDynVals fields a) n =
      if n ∈ dynNames fields then alookupA a n else none := by
  induction fields with
  | nil => simp [collectDynVals, dynNames, alookup]
  | cons p rest ih =>
      obtain ⟨m, b⟩ := p
      cases b with
      | false =>
          rw [dynNames_cons_false] at hnd ⊢
          simpa [collectDynVals, List.filterMap_cons] using ih hnd
      | true =>
          rw [dynNames_cons_true] at hnd ⊢
          obtain ⟨hm, hndr⟩ := List.nodup_cons.mp hnd
          cases h : alookupA a m with
          | some v =>
              by_cases hnm : m = n
              · subst hnm
                simp [collectDynVals, List.filterMap_cons, h, alookup]
              · simp only [collectDynVals, List.filterMap_cons, if_true, h,
                  Option.map_some']
                simp only [collectDynVals] at ih
                simp only [alookup, fun he : m = n => hnm he, if_false, ih hndr,
                  List.mem_cons]
                simp [show ¬ n = m from fun he => hnm he.symm]
          | none =>
              by_cases hnm : m = n
              · subst hnm
                simp only [collectDynVals, List.filterMap_cons, if_true, h,
                  Option.map_none']
                simp only [collectDynVals] at ih
                simp [ih hndr, hm, h]
              · simp only [collectDynVals, List.filterMap_cons, if_true, h,
                  Option.map_none']
                simp only [collectDynVals] at ih
                simp only [ih hndr, List.mem_cons]
                simp [show ¬ n = m from fun he => hnm he.symm]

theorem mem_collectDynVals (fields : List (String × Bool)) (a : PAttrs)
    (p : String × PVal) (h : p ∈ collectDynVals fields a) :
    alookupA a p.1 = some p.2 := by
  simp only [collectDynVals, List.mem_filterMap] at h
  obtain ⟨q, _, hstep⟩ := h
  by_cases hb : q.2
  · rw [if_pos hb] at hstep
    cases hl : alookupA a q.1 with
    | none => rw [hl] at hstep; simp at hstep
    | some v =>
        rw [hl] at hstep
        simp only [Option.map_some', Option.some.injEq] at hstep
        rw [← hstep]
        exact hl
  · rw [if_neg hb] at hstep
    simp at hstep

theorem alookup_ext_of_map_fst {β : Type} :
    ∀ (l1 l2 : List (String × β)),
      l1.map Prod.fst = l2.map Prod.fst → (l1.map Prod.fst).Nodup →
      (∀ k, alookup l1 k = alookup l2 k) → l1 = l2 := by
  intro l1
  induction l1 with
  | nil =>
      intro l2 hf _ _
      cases l2 with
      | nil => rfl
      | cons q r => simp at hf
  | cons p r1 ih =>
      intro l2 hf hnd hl
      obtain ⟨pk, pv⟩ := p
      cases l2 with
      | nil => simp at hf
      | cons q r2 =>
          obtain ⟨qk, qv⟩ := q
          simp only [List.map_cons, List.cons.injEq] at hf
          obtain ⟨hpq, hrest⟩ := hf
          subst hpq
          simp only [List.map_cons, List.nodup_cons] at hnd
          have hv := hl pk
          simp only [alookup, if_pos rfl] at hv
          have hveq : pv = qv := Option.some.inj hv
          have htail : ∀ k, alookup r1 k = alookup r2 k := by
            intro k
            by_cases hk : k = pk
            · subst hk
              rw [alookup_none_of_not_mem r1 k hnd.1,
                alookup_none_of_not_mem r2 k (hrest ▸ hnd.1)]
            · have hthis := hl k
              simp only [alookup] at hthis
              rw [if_neg (fun he : pk = k => hk he.symm),
                if_neg (fun he : pk = k => hk he.symm)] at hthis
              exact hthis
          rw [hveq, ih r2 hrest hnd.2 htail]

theorem pobjFlat_eq (cn : String) (fields : List (String × Bool)) (attrs : PAttrs) :
    pobjFlat (.mk cn fields attrs) =
      (((collectDynVals fields attrs).map (fun p => (pvalFlat p.2).1)).flatten,
        .objTd cn fields
          (toPDyn ((collectDynVals fields attrs).map
            (fun p => (p.1, (pvalFlat p.2).2))))
          (removeKeys (dynNames fields) attrs)) := by
  have key : fields.filterMap
      (fun p => if p.2 then
        (alookup (pattrsFlat attrs) p.1).map (fun r => (p.1, r)) else none) =
      (collectDynVals fields attrs).map (fun p => (p.1, pvalFlat p.2)) := by
    induction fields with
    | nil => rfl
    | cons p rest ih =>
        obtain ⟨m, b⟩ := p
        cases b with
        | false => simpa [collectDynVals, List.filterMap_cons] using ih
        | true =>
            cases h : alookupA attrs m with
            | none =>
                simpa [collectDynVals, List.filterMap_cons,
                  alookup_pattrsFlat, h] using ih
            | some v =>
                simpa [collectDynVals, List.filterMap_cons,
                  alookup_pattrsFlat, h] using ih
  simp only [pobjFlat, key, List.map_map]
  rfl

/-- Round-trip property of a value under a replaced leaf list: the
treedef rebuilds any leaf list of the right length, consuming exactly
that many leaves and flattening back to them. -/
def RoundProp (x : PVal) : Prop :=
  ∀ (ls rest : List Int), ls.length = (pvalFlat x).1.length →
    ∃ y, pvalUnflat (pvalFlat x).2 (ls ++ rest) = some (y, rest) ∧
      pvalFlat y = (ls, (pvalFlat x).2)

theorem pdynRound (vs : List (String × PVal)) :
    (∀ p ∈ vs, RoundProp p.2) → ∀ (ls rest : List Int),
    ls.length = ((vs.map (fun p => (pvalFlat p.2).1)).flatten).length →
    ∃ a : PAttrs,
      pdynUnflat (toPDyn (vs.map (fun p => (p.1, (pvalFlat p.2).2))))
          (ls ++ rest) = some (a, rest) ∧
      attrKeys a = vs.map Prod.fst ∧
      (toPairs a).map (fun p => (p.1, (pvalFlat p.2).2)) =
        vs.map (fun p => (p.1, (pvalFlat p.2).2)) ∧
      ((toPairs a).map (fun p => (pvalFlat p.2).1)).flatten = ls := by
  induction vs with
  | nil =>
      intro _ ls rest hlen
      simp only [List.map_nil, List.flatten_nil, List.length_nil] at hlen
      have hls : ls = [] := List.eq_nil_of_length_eq_zero hlen
      subst hls
      exact ⟨.anil, by simp [toPDyn, pdynUnflat], rfl, rfl, rfl⟩
  | cons p vstail ih =>
      intro hIH ls rest hlen
      simp only [List.map_cons, List.flatten_cons, List.length_append] at hlen
      have hlen1 : (ls.take (pvalFlat p.2).1.length).length =
          (pvalFlat p.2).1.length := by
        rw [List.length_take]
        omega
      have hlen2 : (ls.drop (pvalFlat p.2).1.length).length =
          ((vstail.map (fun q => (pvalFlat q.2).1)).flatten).length := by
        rw [List.length_drop]
        omega
      obtain ⟨y, hy, hyflat⟩ := hIH p (by simp)
        (ls.take (pvalFlat p.2).1.length)
        (ls.drop (pvalFlat p.2).1.length ++ rest) hlen1
      obtain ⟨a2, ha2, hk2, ht2, hl2⟩ := ih (fun q hq => hIH q (by simp [hq]))
        (ls.drop (pvalFlat p.2).1.length) rest hlen2
      refine ⟨.acons p.1 y a2, ?_, ?_, ?_, ?_⟩
      · simp only [List.map_cons, toPDyn, pdynUnflat]
        rw [show ls ++ rest =
          ls.take (pvalFlat p.2).1.length ++
            (ls.drop (pvalFlat p.2).1.length ++ rest) by
          rw [← List.append_assoc, List.take_append_drop]]
        simp [hy, ha2]
      · simp [attrKeys, hk2]
      · simp only [toPairs, List.map_cons, ht2, hyflat]
      · simp only [toPairs, List.map_cons, List.flatten_cons, hyflat, hl2]
        exact List.take_append_drop _ _

mutual

/-- Every well-formed value satisfies the replaced-leaves round trip. -/
theorem roundVal : ∀ (x : PVal), pvalWF x = true → RoundProp x
  | .atom i, _ => by
      intro ls rest hlen
      simp only [pvalFlat, List.length_singleton] at hlen
      obtain ⟨l, rfl⟩ := List.length_eq_one.mp hlen
      exact ⟨.atom l, by simp [pvalFlat, pvalUnflat], by simp [pvalFlat]⟩
  | .obj o, h => roundObj o h

/-- Round trip for instances: unflattening the instance treedef over any
right-length leaf list rebuilds an instance flattening back to exactly
those leaves and the same treedef. -/
theorem roundObj : ∀ (o : PObj), pobjWF o = true → RoundProp (.obj o)
  | .mk cn fields attrs, h => by
      simp only [pobjWF, Bool.and_eq_true, List.all_eq_true] at h
      obtain ⟨⟨hnd0, hpres0⟩, hwfa⟩ := h
      have hnd : (dynNames fields).Nodup := (nodupB_iff _).mp hnd0
      have hpres : ∀ n ∈ dynNames fields, (alookupA attrs n).isSome = true :=
        fun n hn => hpres0 n hn
      intro ls rest hlen
      have hflat : pvalFlat (.obj (.mk cn fields attrs)) =
          pobjFlat (.mk cn fields attrs) := by simp [pvalFlat]
      have hIH : ∀ p ∈ collectDynVals fields attrs, RoundProp p.2 := by
        intro p hp
        exact roundAttrs attrs hwfa p.1 p.2 (mem_collectDynVals fields attrs p hp)
      rw [hflat, pobjFlat_eq] at hlen ⊢
      simp only at hlen ⊢
      obtain ⟨a, ha, hka, hta, hla⟩ :=
        pdynRound (collectDynVals fields attrs) hIH ls rest hlen
      have hvsnames : (collectDynVals fields attrs).map Prod.fst =
          dynNames fields := by
        rw [collectDynVals_map_fst]
        exact List.filter_eq_self.mpr hpres
      have hkeysa : attrKeys a = dynNames fields := by rw [hka, hvsnames]
      refine ⟨.obj (.mk cn fields
        (aappend a (removeKeys (dynNames fields) attrs))), ?_, ?_⟩
      · simp only [pvalUnflat, ha]
      · have haSome : ∀ n ∈ dynNames fields, (alookupA a n).isSome = true :=
          fun n hn => (alookupA_isSome_iff_mem a n).mpr (hkeysa ▸ hn)
        have happlook : ∀ n ∈ dynNames fields,
            alookupA (aappend a (removeKeys (dynNames fields) attrs)) n =
              alookupA a n := by
          intro n hn
          rw [alookupA_aappend]
          obtain ⟨v, hv⟩ := Option.isSome_iff_exists.mp (haSome n hn)
          rw [hv]
        have hFLnames : (collectDynVals fields
            (aappend a (removeKeys (dynNames fields) attrs))).map Prod.fst =
            dynNames fields := by
          rw [collectDynVals_map_fst]
          refine List.filter_eq_self.mpr ?_
          intro n hn
          rw [happlook n hn]
          exact haSome n hn
        have hFL : collectDynVals fields
            (aappend a (removeKeys (dynNames fields) attrs)) = toPairs a := by
          apply alookup_ext_of_map_fst
          · rw [hFLnames, toPairs_map_fst, hkeysa]
          · rw [hFLnames]; exact hnd
          · intro k
            rw [alookup_toPairs,
              alookup_collectDynVals _ _ hnd k]
            by_cases hk : k ∈ dynNames fields
            · rw [if_pos hk, happlook k hk]
            · rw [if_neg hk]
              have : ¬ (alookupA a k).isSome = true := by
                rw [alookupA_isSome_iff_mem, hkeysa]
                exact hk
              cases hcase : alookupA a k with
              | none => rfl
              | some v => rw [hcase] at this; simp at this
        have hflaty : pvalFlat (.obj (.mk cn fields
            (aappend a (removeKeys (dynNames fields) attrs)))) =
            pobjFlat (.mk cn fields
              (aappend a (removeKeys (dynNames fields) attrs))) := by
          simp [pvalFlat]
        rw [hflaty, pobjFlat_eq, hFL]
        have hstat : removeKeys (dynNames fields)
            (aappend a (removeKeys (dynNames fields) attrs)) =
            removeKeys (dynNames fields) attrs := by
          rw [removeKeys_aappend,
            removeKeys_eq_anil (dynNames fields) a
              (fun k hk => hkeysa ▸ hk),
            removeKeys_idem]
          rfl
        rw [hstat, hla, hta]

/-- Round trip for every value stored in an attribute bag. -/
theorem roundAttrs : ∀ (a : PAttrs), pattrsWF a = true →
    ∀ (n : String) (v : PVal), alookupA a n = some v → RoundProp v
  | .anil, _, n, v, hl => by simp [alookupA] at hl
  | .acons m w rest, hwf, n, v, hl => by
      simp only [pattrsWF, Bool.and_eq_true] at hwf
      by_cases hm : m = n
      · rw [alookupA, if_pos hm] at hl
        exact (Option.some.inj hl) ▸ roundVal w hwf.1
      · rw [alookupA, if_neg hm] at hl
        exact roundAttrs rest hwf.2 n v hl

end

/-- Claim C1: for every well-formed instance of a registered treeclass,
unflattening the result of flattening (leaves plus structural
descriptor) produces an instance equal to the original under the
equality contract — identical leaf sequence and identical structural
descriptor compared deeply — at every nesting depth.  (The proof gives
the stronger fact that the rebuilt instance flattens to exactly the same
pair; the source's `_MetaDict.__eq__` quirk makes the code's own treedef
comparison weaker than this deep comparison.) -/
theorem claim_C1_flatten_unflatten_roundtrip (x : PVal)
    (hwf : pvalWF x = true) :
    ∃ y, pvalUnflat (pvalFlat x).2 (pvalFlat x).1 = some (y, []) ∧
      pvalFlat y = pvalFlat x := by
  obtain ⟨y, hy, hflat⟩ := roundVal x hwf (pvalFlat x).1 [] rfl
  rw [List.append_nil] at hy
  exact ⟨y, hy, by rw [hflat]⟩

/-- Concrete instantiation of `claim_C1_flatten_unflatten_roundtrip` on
a depth-two instance: an outer instance with a dynamic treeclass child,
a dynamic leaf, and a static attribute. -/
theorem claim_C1_flatten_unflatten_roundtrip_witness :
    ∃ y, pvalUnflat
        (pvalFlat (.obj (.mk "Outer" [("child", true), ("lr", true), ("st", false)]
          (.acons "child"
            (.obj (.mk "Inner" [("b", true)] (.acons "b" (.atom 5) .anil)))
            (.acons "lr" (.atom 3) (.acons "st" (.atom 7) .anil)))))).2
        (pvalFlat (.obj (.mk "Outer" [("child", true), ("lr", true), ("st", false)]
          (.acons "child"
            (.obj (.mk "Inner" [("b", true)] (.acons "b" (.atom 5) .anil)))
            (.acons "lr" (.atom 3) (.acons "st" (.atom 7) .anil)))))).1 =
      some (y, []) ∧
    pvalFlat y =
      pvalFlat (.obj (.mk "Outer" [("child", true), ("lr", true), ("st", false)]
        (.acons "child"
          (.obj (.mk "Inner" [("b", true)] (.acons "b" (.atom 5) .anil)))
          (.acons "lr" (.atom 3) (.acons "st" (.atom 7) .anil))))) :=
  claim_C1_flatten_unflatten_roundtrip
    (.obj (.mk "Outer" [("child", true), ("lr", true), ("st", false)]
      (.acons "child"
        (.obj (.mk "Inner" [("b", true)] (.acons "b" (.atom 5) .anil)))
        (.acons "lr" (.atom 3) (.acons "st" (.atom 7) .anil)))))
    (by decide)

/-! ## Leaf-wise operator dispatch

Source: `src/pytreeclass/_src/treeclass.py`, `_dispatched_op_tree_map`
(lines 204-215); the `tree_op.py` revision (lines 31-70) dispatches the
same four cases through `functools`-style registration.  The host
`jtu.tree_map` is modelled over the `PVal` trees above: flatten both
operands, require equal treedefs, combine the leaf lists, unflatten. -/

mutual

/-- Number of leaf positions of a treedef. -/
def tdLeafCount : PTd → Nat
  | .atomTd => 1
  | .objTd _ _ dyn _ => pdynLeafCount dyn

/-- Number of leaf positions of the dynamic entries. -/
def pdynLeafCount : PDyn → Nat
  | .dnil => 0
  | .dcons _ td rest => tdLeafCount td + pdynLeafCount rest

end

theorem pdynLeafCount_toPDyn (l : List (String × PTd)) :
    pdynLeafCount (toPDyn l) = (l.map (fun p => tdLeafCount p.2)).sum := by
  induction l with
  | nil => rfl
  | cons p rest ih => simp [toPDyn, pdynLeafCount, ih]

mutual

/-- A value's leaf count equals its treedef's leaf count. -/
theorem lenVal : ∀ (x : PVal),
    (pvalFlat x).1.length = tdLeafCount (pvalFlat x).2
  | .atom i => by simp [pvalFlat, tdLeafCount]
  | .obj o => lenObj o

/-- Leaf count of an instance equals its treedef's leaf count. -/
theorem lenObj : ∀ (o : PObj),
    (pvalFlat (.obj o)).1.length = tdLeafCount (pvalFlat (.obj o)).2
  | .mk cn fields attrs => by
      have hflat : pvalFlat (.obj (.mk cn fields attrs)) =
          pobjFlat (.mk cn fields attrs) := by simp [pvalFlat]
      rw [hflat, pobjFlat_eq]
      simp only [tdLeafCount, pdynLeafCount_toPDyn, List.length_flatten,
        List.map_map]
      congr 1
      apply List.map_congr_left
      intro p hp
      exact lenAttrs attrs p.1 p.2 (mem_collectDynVals fields attrs p hp)

/-- Leaf count of every attribute value equals its treedef's count. -/
theorem lenAttrs : ∀ (a : PAttrs) (n : String) (v : PVal),
    alookupA a n = some v →
    (pvalFlat v).1.length = tdLeafCount (pvalFlat v).2
  | .anil, n, v, hl => by simp [alookupA] at hl
  | .acons m w rest, n, v, hl => by
      by_cases hm : m = n
      · rw [alookupA, if_pos hm] at hl
        exact (Option.some.inj hl) ▸ lenVal w
      · rw [alookupA, if_neg hm] at hl
        exact lenAttrs rest n v hl

end

/-- Class name of an instance (`type(x)` modulo the registry). -/
def PObj.className : PObj → String
  | .mk cn _ _ => cn

/-- Right-hand operand categories of `_dispatched_op_tree_map`:
an instance of a registered treeclass; one of the broadcastable scalar
kinds (`Tracer`, `jnp.ndarray`, `int`, `float`, `complex`, `bool`,
`str`); the absent operand `None`; or any other runtime value, carried
by its type name. -/
inductive RVal where
  | tree : PObj → RVal
  | scalar : Int → RVal
  | noneV : RVal
  | otherV : String → RVal
deriving Repr

/-- Outcomes of the dispatch: the `NotImplementedError` naming the
offending type, or the host framework's structure-mismatch error from
`jtu.tree_map` over differently shaped operands. -/
inductive OpErr where
  | notImplemented : String → OpErr
  | structureMismatch : OpErr
deriving DecidableEq, Repr

/-- Message of the `NotImplementedError` (`rhs of type {type} is not
implemented.`). -/
def notImplementedMsg (t : String) : String :=
  "rhs of type " ++ t ++ " is not implemented."

/-- Host `jtu.tree_map` over two pytrees: equal treedefs are required,
leaves are combined pairwise, and the result is rebuilt from the left
treedef. -/
def treeMap2 (f : Int → Int → Int) (l r : PVal) : Except OpErr PVal :=
  if (pvalFlat l).2 = (pvalFlat r).2 then
    match pvalUnflat (pvalFlat l).2
        (List.zipWith f (pvalFlat l).1 (pvalFlat r).1) with
    | some (y, _) => .ok y
    | none => .error .structureMismatch
  else .error .structureMismatch

/-- Host `jtu.tree_map` over one pytree. -/
def treeMap1 (g : Int → Int) (l : PVal) : Except OpErr PVal :=
  match pvalUnflat (pvalFlat l).2 ((pvalFlat l).1.map g) with
  | some (y, _) => .ok y
  | none => .error .structureMismatch

/-- Embeds `_dispatched_op_tree_map` (`treeclass.py` lines 204-215): an
`isinstance(rhs, type(lhs))` operand maps the operator pairwise; a
scalar-kind operand is broadcast; `None` applies the operator as unary;
anything else raises `NotImplementedError` naming the type.  The single
Python `func` is modelled by its binary reading `f` and its unary
reading `g` (only one of which a given magic method exercises). -/
def dispatchedOpTreeMap (f : Int → Int → Int) (g : Int → Int)
    (lhs : PObj) (rhs : RVal) : Except OpErr PVal :=
  match rhs with
  | .tree r =>
      if r.className = lhs.className then treeMap2 f (.obj lhs) (.obj r)
      else .error (.notImplemented r.className)
  | .scalar s => treeMap1 (fun x => f x s) (.obj lhs)
  | .noneV => treeMap1 g (.obj lhs)
  | .otherV t => .error (.notImplemented t)

theorem unflat_replaced_leaves (x : PVal) (hwf : pvalWF x = true)
    (ls : List Int) (hlen : ls.length = (pvalFlat x).1.length) :
    ∃ y, pvalUnflat (pvalFlat x).2 ls = some (y, []) ∧
      pvalFlat y = (ls, (pvalFlat x).2) := by
  obtain ⟨y, hy, hf⟩ := roundVal x hwf ls [] hlen
  rw [List.append_nil] at hy
  exact ⟨y, hy, hf⟩

theorem pvalFlat_obj_td_shape (o : PObj) :
    ∃ fs dyn stat, (pvalFlat (.obj o)).2 = .objTd o.className fs dyn stat := by
  obtain ⟨cn, fields, attrs⟩ := o
  rw [show pvalFlat (.obj (.mk cn fields attrs)) =
    pobjFlat (.mk cn fields attrs) by simp [pvalFlat], pobjFlat_eq]
  exact ⟨_, _, _, rfl⟩

/-- Claim C7: the leaf-wise binary operator dispatch
(`_dispatched_op_tree_map`) applies the operator pairwise when the
right-hand operand has the same structural shape (treedef) as the left,
broadcasts a scalar-kind operand over every leaf, applies the operator
as unary when the operand is absent, and fails with a
`NotImplementedError` naming the offending type on any other operand
type (including a treeclass of a different class). -/
theorem claim_C7_operator_dispatch (f : Int → Int → Int) (g : Int → Int)
    (lhs : PObj) (hwf : pvalWF (.obj lhs) = true) :
    (∀ r : PObj, (pvalFlat (.obj r)).2 = (pvalFlat (.obj lhs)).2 →
      ∃ y, dispatchedOpTreeMap f g lhs (.tree r) = .ok y ∧
        pvalFlat y =
          (List.zipWith f (pvalFlat (.obj lhs)).1 (pvalFlat (.obj r)).1,
            (pvalFlat (.obj lhs)).2)) ∧
    (∀ s : Int, ∃ y, dispatchedOpTreeMap f g lhs (.scalar s) = .ok y ∧
      pvalFlat y = ((pvalFlat (.obj lhs)).1.map (fun x => f x s),
        (pvalFlat (.obj lhs)).2)) ∧
    (∃ y, dispatchedOpTreeMap f g lhs .noneV = .ok y ∧
      pvalFlat y = ((pvalFlat (.obj lhs)).1.map g, (pvalFlat (.obj lhs)).2)) ∧
    (∀ t : String, dispatchedOpTreeMap f g lhs (.otherV t) =
        .error (.notImplemented t) ∧
      Mentions (notImplementedMsg t) t) ∧
    (∀ r : PObj, r.className ≠ lhs.className →
      dispatchedOpTreeMap f g lhs (.tree r) =
        .error (.notImplemented r.className)) := by
  refine ⟨?_, ?_, ?_, ?_, ?_⟩
  · intro r htd
    have hcn : r.className = lhs.className := by
      obtain ⟨fsr, dynr, statr, hr⟩ := pvalFlat_obj_td_shape r
      obtain ⟨fsl, dynl, statl, hl⟩ := pvalFlat_obj_td_shape lhs
      rw [hr, hl] at htd
      exact (PTd.objTd.injEq _ _ _ _ _ _ _ _).mp htd |>.1
    have hlen : (List.zipWith f (pvalFlat (.obj lhs)).1
        (pvalFlat (.obj r)).1).length = (pvalFlat (.obj lhs)).1.length := by
      rw [List.length_zipWith, lenVal (.obj r), lenVal (.obj lhs), htd,
        Nat.min_self]
    obtain ⟨y, hy, hf⟩ := unflat_replaced_leaves (.obj lhs) hwf _ hlen
    refine ⟨y, ?_, hf⟩
    simp only [dispatchedOpTreeMap, hcn, if_true, treeMap2, htd, if_pos rfl, hy]
  · intro s
    obtain ⟨y, hy, hf⟩ := unflat_replaced_leaves (.obj lhs) hwf
      ((pvalFlat (.obj lhs)).1.map (fun x => f x s)) (by simp)
    exact ⟨y, by simp only [dispatchedOpTreeMap, treeMap1, hy], hf⟩
  · obtain ⟨y, hy, hf⟩ := unflat_replaced_leaves (.obj lhs) hwf
      ((pvalFlat (.obj lhs)).1.map g) (by simp)
    exact ⟨y, by simp only [dispatchedOpTreeMap, treeMap1, hy], hf⟩
  · intro t
    refine ⟨rfl, ?_⟩
    unfold notImplementedMsg
    apply mentions_append_right
    exact mentions_append_left _ (mentions_refl t)
  · intro r hr
    simp [dispatchedOpTreeMap, hr]

/-- Concrete instantiation of `claim_C7_operator_dispatch`: a two-field
instance added pairwise to itself, broadcast against a scalar, negated,
and combined with an unsupported operand type. -/
theorem claim_C7_operator_dispatch_witness :
    (∃ y, dispatchedOpTreeMap (· + ·) (fun x => -x)
        (.mk "Point" [("x", true), ("y", true)]
          (.acons "x" (.atom 1) (.acons "y" (.atom 2) .anil)))
        (.tree (.mk "Point" [("x", true), ("y", true)]
          (.acons "x" (.atom 1) (.acons "y" (.atom 2) .anil)))) = .ok y ∧
      (pvalFlat y).1 = [2, 4]) ∧
    dispatchedOpTreeMap (· + ·) (fun x => -x)
      (.mk "Point" [("x", true), ("y", true)]
        (.acons "x" (.atom 1) (.acons "y" (.atom 2) .anil)))
      (.otherV "list") = .error (.notImplemented "list") := by
  have h := claim_C7_operator_dispatch (· + ·) (fun x => -x)
    (.mk "Point" [("x", true), ("y", true)]
      (.acons "x" (.atom 1) (.acons "y" (.atom 2) .anil))) (by decide)
  refine ⟨?_, (h.2.2.2.1 "list").1⟩
  obtain ⟨y, hy, hf⟩ := h.1
    (.mk "Point" [("x", true), ("y", true)]
      (.acons "x" (.atom 1) (.acons "y" (.atom 2) .anil))) rfl
  exact ⟨y, hy, by rw [hf]; rfl⟩

/-! ## Totality of the tree equality check

Source: `src/pytreeclass/_src/tree_base.py`, `is_tree_equal` (lines
287-311).  Inputs are arbitrary host pytrees: leaves are either
array-like values (owning `shape` and `dtype`) or plain scalars; the
host flatten yields the leaf sequence and the shape-only treedef. -/

/-- A pytree leaf for `is_tree_equal`: a plain scalar or an array-like
value (element list standing for shape plus contents). -/
inductive NLeaf where
  | scalar : Int → NLeaf
  | arr : List Int → NLeaf
deriving DecidableEq, Repr

/-- A host pytree. -/
inductive NTree where
  | leaf : NLeaf → NTree
  | node : List NTree → NTree
deriving Repr

mutual

/-- Treedef of a host pytree: its shape with leaves erased. -/
inductive NShape where
  | leafS : NShape
  | nodeS : NShapeL → NShape
deriving DecidableEq, Repr

/-- Treedefs of a forest. -/
inductive NShapeL where
  | snil : NShapeL
  | scons : NShape → NShapeL → NShapeL
deriving DecidableEq, Repr

end

mutual

/-- Host flatten: the leaf sequence. -/
def ntreeLeaves : NTree → List NLeaf
  | .leaf l => [l]
  | .node ts => ntreeLeavesL ts

/-- Leaves of a forest, in order. -/
def ntreeLeavesL : List NTree → List NLeaf
  | [] => []
  | t :: ts => ntreeLeaves t ++ ntreeLeavesL ts

end

mutual

/-- Host flatten: the treedef. -/
def ntreeShape : NTree → NShape
  | .leaf _ => .leafS
  | .node ts => .nodeS (ntreeShapeL ts)

/-- Treedef list of a forest. -/
def ntreeShapeL : List NTree → NShapeL
  | [] => .snil
  | t :: ts => .scons (ntreeShape t) (ntreeShapeL ts)

end

/-- The numpy error raised by `if lhs != rhs` when the comparison
broadcasts to an array of more than one element. -/
def ambiguousTruthMsg : String :=
  "The truth value of an array with more than one element is ambiguous."

/-- One iteration of the leaf loop of `is_tree_equal` (lines 296-310):
`ok true` means the pair compares equal (continue), `ok false` means the
function returns `False`, an error is a raised exception.  Array-like
versus array-like uses `np.array_equal`; array-like versus plain
returns `False`; plain versus plain uses Python `!=`; plain versus
array-like broadcasts `!=` into a boolean array whose truth value is its
single element when it has exactly one (an empty comparison is falsy,
i.e. the pair is skipped), and raises otherwise. -/
def leafStep : NLeaf → NLeaf → Except String Bool
  | .arr a, .arr b => .ok (decide (a = b))
  | .arr _, .scalar _ => .ok false
  | .scalar s, .scalar t => .ok (decide (s = t))
  | .scalar s, .arr [b0] => .ok (decide (s = b0))
  | .scalar _, .arr [] => .ok true
  | .scalar _, .arr _ => .error ambiguousTruthMsg

/-- The leaf loop of `is_tree_equal`. -/
def eqLoop : List (NLeaf × NLeaf) → Except String Bool
  | [] => .ok true
  | (a, b) :: rest =>
      match leafStep a b with
      | .error e => .error e
      | .ok false => .ok false
      | .ok true => eqLoop rest

/-- Embeds `is_tree_equal` (lines 287-311): flatten both sides, return
`False` on mismatched treedefs, then walk the zipped leaves. -/
def isTreeEqual (lhs rhs : NTree) : Except String Bool :=
  if ntreeShape lhs = ntreeShape rhs then
    eqLoop (List.zip (ntreeLeaves lhs) (ntreeLeaves rhs))
  else .ok false

/-- A leaf pair whose comparison cannot raise: everything except a plain
scalar on the left against a multi-element array on the right. -/
def safePair : NLeaf → NLeaf → Bool
  | .scalar _, .arr (_ :: _ :: _) => false
  | _, _ => true

/-- Value of one leaf comparison on a safe pair. -/
def leafEqB : NLeaf → NLeaf → Bool
  | .arr a, .arr b => decide (a = b)
  | .arr _, .scalar _ => false
  | .scalar s, .scalar t => decide (s = t)
  | .scalar s, .arr [b0] => decide (s = b0)
  | .scalar _, .arr _ => true

theorem eqLoop_all (ps : List (NLeaf × NLeaf))
    (hsafe : ∀ p ∈ ps, safePair p.1 p.2 = true) :
    eqLoop ps = .ok (ps.all (fun p => leafEqB p.1 p.2)) := by
  induction ps with
  | nil => rfl
  | cons p rest ih =>
      obtain ⟨a, b⟩ := p
      have hs : safePair a b = true := hsafe (a, b) (by simp)
      have hrest := ih (fun q hq => hsafe q (by simp [hq]))
      match a, b, hs with
      | .arr a0, .arr b0, _ =>
          by_cases he : a0 = b0 <;>
            simp [eqLoop, leafStep, leafEqB, he, hrest]
      | .arr a0, .scalar t, _ => simp [eqLoop, leafStep, leafEqB]
      | .scalar s, .scalar t, _ =>
          by_cases he : s = t <;>
            simp [eqLoop, leafStep, leafEqB, he, hrest]
      | .scalar s, .arr [], _ => simp [eqLoop, leafStep, leafEqB, hrest]
      | .scalar s, .arr [b0], _ =>
          by_cases he : s = b0 <;>
            simp [eqLoop, leafStep, leafEqB, he, hrest]

/-- Claim C10 (amended): `is_tree_equal` never raises and returns a
boolean on every pair whose corresponding leaves avoid comparing a plain
scalar on the left against a multi-element array on the right; on those
inputs it returns exactly (descriptors equal and every corresponding
leaf pair equal), where an array-like left leaf against a non-array
right leaf counts unequal (`False`), and mismatched descriptors give
`False` before any leaf is compared.  (The original claim's totality
fails: see `claim_C10_is_tree_equal_counterexample`.) -/
theorem claim_C10_is_tree_equal_total (lhs rhs : NTree)
    (hsafe : ntreeShape lhs = ntreeShape rhs →
      ∀ p ∈ List.zip (ntreeLeaves lhs) (ntreeLeaves rhs),
        safePair p.1 p.2 = true) :
    isTreeEqual lhs rhs =
      .ok (decide (ntreeShape lhs = ntreeShape rhs) &&
        (List.zip (ntreeLeaves lhs) (ntreeLeaves rhs)).all
          (fun p => leafEqB p.1 p.2)) := by
  unfold isTreeEqual
  by_cases h : ntreeShape lhs = ntreeShape rhs
  · rw [if_pos h, eqLoop_all _ (hsafe h)]
    simp [h]
  · rw [if_neg h]
    simp [h]

/-- Concrete instantiation of `claim_C10_is_tree_equal_total`: an
array-like left leaf against a plain right leaf of the same tree shape
returns `False` (no exception). -/
theorem claim_C10_is_tree_equal_total_witness :
    isTreeEqual (.leaf (.arr [1, 2])) (.leaf (.scalar 1)) = .ok false :=
  (claim_C10_is_tree_equal_total (.leaf (.arr [1, 2])) (.leaf (.scalar 1))
    (by decide)).trans (by rfl)

/-- Counterexample to claim C10 as stated: the check is not total.  On
two single-leaf trees whose treedefs match, with a plain scalar `1` on
the left and the array `[1, 2]` on the right, the comparison
`lhs != rhs` broadcasts to a two-element boolean array and its truth
value raises, instead of returning a boolean. -/
theorem claim_C10_is_tree_equal_counterexample :
    isTreeEqual (.leaf (.scalar 1)) (.leaf (.arr [1, 2])) =
      .error ambiguousTruthMsg := rfl

/-! ## Non-differentiability filter and its inverse

Source: `src/pytreeclass/_src/misc.py`, `filter_nondiff` with
`where=None` (lines 93-189) and `unfilter_nondiff` (lines 280-293), both
built on `_pytree_map` (`tree_util.py` lines 247-384): a depth-first
field scan over `tree_copy(tree)` that replaces `__undeclared_fields__`
tables (at non-treeclass fields) and recurses into treeclass fields.
The functional model rebuilds the tree; tables and attribute slots are
the only state `_pytree_map` writes. -/

mutual

/-- A treeclass instance of this revision: class field map, override
table, attribute bag. -/
inductive FTree where
  | mk : List (String × UField) → List (String × UField) → FAttrs → FTree
deriving Repr

/-- An attribute value: a non-treeclass leaf (classified by
`_is_nondiff`) or a nested treeclass instance. -/
inductive FVal where
  | leafV : PNode → FVal
  | subV : FTree → FVal
deriving Repr

/-- An attribute bag. -/
inductive FAttrs where
  | fnil : FAttrs
  | fcons : String → FVal → FAttrs → FAttrs
deriving Repr

end

/-- Class field map of an instance. -/
def dcfOf : FTree → List (String × UField)
  | .mk dcf _ _ => dcf

/-- Override table (`__undeclared_fields__`) of an instance. -/
def undeclaredOf : FTree → List (String × UField)
  | .mk _ udf _ => udf

/-- Attribute lookup. -/
def falookup : FAttrs → String → Option FVal
  | .fnil, _ => none
  | .fcons n v rest, k => if n = k then some v else falookup rest k

/-- Effective field dict of `_tree_fields` for this revision. -/
def mergedFields (dcf udf : List (String × UField)) :
    List (String × UField) :=
  if udf = [] then dcf else dictMerge dcf udf

theorem mergedFields_eq (dcf udf : List (String × UField)) :
    mergedFields dcf udf = dictMerge dcf udf := by
  unfold mergedFields
  by_cases h : udf = []
  · rw [if_pos h, h]; rfl
  · rw [if_neg h]

/-- The metadata extension `_copy_field(field, field_aux_metadata=
dict(static=True, nondiff=True))` performed by `filter_nondiff`. -/
def copyFieldNondiff (f : UField) : UField :=
  { f with metadata := { f.metadata with static := true, nondiff := true } }

/-- A field at which `filter_nondiff` installs an override: not static
(otherwise `is_leaf` skips it), bound to a non-treeclass value that
`_is_nondiff` classifies non-differentiable. -/
def filterTrigger (attrs : FAttrs) (p : String × UField) : Bool :=
  if p.2.metadata.static then false
  else
    match falookup attrs p.2.name with
    | some (.leafV node) => isNondiff node
    | _ => false

/-- The table fold of `filter_nondiff`: walking the effective fields in
order, each triggered field merges its nondiff-tagged copy into the
current table (`true_func`); everything else leaves the table alone. -/
def filterTableFold (attrs : FAttrs) (fields : List (String × UField))
    (tbl : List (String × UField)) : List (String × UField) :=
  fields.foldl
    (fun tb p =>
      if filterTrigger attrs p then dictInsert tb p.2.name (copyFieldNondiff p.2)
      else tb)
    tbl

/-- A field whose attribute is a non-treeclass value: at such fields the
`unfilter_nondiff` traversal executes its `true_func` (its `is_leaf` is
constantly false, its `cond` constantly true). -/
def unfilterTrigger (attrs : FAttrs) (p : String × UField) : Bool :=
  match falookup attrs p.2.name with
  | some (.leafV _) => true
  | _ => false

/-- The table fold of `unfilter_nondiff`: at every non-treeclass field
the table is replaced by its nondiff-free comprehension. -/
def unfilterTableFold (attrs : FAttrs) (fields : List (String × UField))
    (tbl : List (String × UField)) : List (String × UField) :=
  fields.foldl
    (fun tb p =>
      if unfilterTrigger attrs p then tb.filter (fun q => !q.2.metadata.nondiff)
      else tb)
    tbl

/-- Effective field of name `n` is declared and not static. -/
def fieldNonStatic (fields : List (String × UField)) (n : String) : Bool :=
  match alookup fields n with
  | some f => !f.metadata.static
  | none => false

mutual

/-- Embeds `filter_nondiff(tree, where=None)` (on the structural copy):
rebuild the override table by the field fold and recurse into treeclass
values of non-static fields (`is_leaf` stops at static fields). -/
def filterTree : FTree → FTree
  | .mk dcf udf attrs =>
      .mk dcf (filterTableFold attrs (mergedFields dcf udf) udf)
        (filterAttrs (mergedFields dcf udf) attrs)

/-- Recursion of `filter_nondiff` into one attribute slot. -/
def filterVal : FVal → FVal
  | .leafV p => .leafV p
  | .subV t => .subV (filterTree t)

/-- Per-slot effect of the `filter_nondiff` traversal on the attribute
bag: only treeclass values of non-static effective fields are entered. -/
def filterAttrs (fields : List (String × UField)) : FAttrs → FAttrs
  | .fnil => .fnil
  | .fcons n v rest =>
      .fcons n (if fieldNonStatic fields n then filterVal v else v)
        (filterAttrs fields rest)

end

mutual

/-- Embeds `unfilter_nondiff` (on the structural copy): drop
nondiff-tagged table entries at every node owning a non-treeclass field
value, and recurse into every treeclass field value (its `is_leaf` is
constantly false, so static fields are entered too). -/
def unfilterTree : FTree → FTree
  | .mk dcf udf attrs =>
      .mk dcf (unfilterTableFold attrs (mergedFields dcf udf) udf)
        (unfilterAttrs (mergedFields dcf udf) attrs)

/-- Recursion of `unfilter_nondiff` into one attribute slot. -/
def unfilterVal : FVal → FVal
  | .leafV p => .leafV p
  | .subV t => .subV (unfilterTree t)

/-- Per-slot effect of the `unfilter_nondiff` traversal: every treeclass
value sitting at a declared (effective) field is entered. -/
def unfilterAttrs (fields : List (String × UField)) : FAttrs → FAttrs
  | .fnil => .fnil
  | .fcons n v rest =>
      .fcons n (if (alookup fields n).isSome then unfilterVal v else v)
        (unfilterAttrs fields rest)

end

mutual

/-- Leaf sequence of an instance under the flatten of this revision:
the values of non-static effective fields in field order, treeclass
values flattened recursively, every other value contributing itself as
one leaf.  (The host framework flattens containers further; that
refinement is value-preserving and irrelevant to comparing leaf
sequences of trees with identical attribute values.) -/
def ftreeLeaves : FTree → List PNode
  | .mk dcf udf attrs =>
      ((mergedFields dcf udf).filterMap
        (fun p =>
          if p.2.metadata.static then none
          else alookup (fattrsLeaves attrs) p.2.name)).flatten

/-- Leaf sequence of one attribute value. -/
def fvalLeaves : FVal → List PNode
  | .leafV p => [p]
  | .subV t => ftreeLeaves t

/-- Leaf sequences of every attribute value, keyed by name. -/
def fattrsLeaves : FAttrs → List (String × List PNode)
  | .fnil => []
  | .fcons n v rest => (n, fvalLeaves v) :: fattrsLeaves rest

end

mutual

/-- Dict invariants of an instance: field maps have distinct keys and
each descriptor's recorded name is its key (Python dicts guarantee
both); recursively for nested instances. -/
def wfFTree : FTree → Bool
  | .mk dcf udf attrs =>
      nodupB (dcf.map Prod.fst) && nodupB (udf.map Prod.fst) &&
      dcf.all (fun p => p.2.name == p.1) && udf.all (fun p => p.2.name == p.1) &&
      wfFAttrs attrs

/-- Dict invariants of an attribute value. -/
def wfFVal : FVal → Bool
  | .leafV _ => true
  | .subV t => wfFTree t

/-- Dict invariants of every attribute value. -/
def wfFAttrs : FAttrs → Bool
  | .fnil => true
  | .fcons _ v rest => wfFVal v && wfFAttrs rest

end

mutual

/-- Override-table invariant: no pre-existing nondiff entries (the
claim's hypothesis), and every entry carries `static=true` metadata (the
library creates overrides only through `filter_nondiff` and
`tree_freeze`, both of which set `static`); recursively for nested
instances. -/
def tblOkTree : FTree → Bool
  | .mk _ udf attrs =>
      udf.all (fun q => !q.2.metadata.nondiff && q.2.metadata.static) &&
      tblOkAttrs attrs

/-- Override-table invariant of an attribute value. -/
def tblOkVal : FVal → Bool
  | .leafV _ => true
  | .subV t => tblOkTree t

/-- Override-table invariant of every attribute value. -/
def tblOkAttrs : FAttrs → Bool
  | .fnil => true
  | .fcons _ v rest => tblOkVal v && tblOkAttrs rest

end

theorem alookup_isSome_iff_mem_fst {α : Type} (xs : List (String × α))
    (k : String) : (alookup xs k).isSome = true ↔ k ∈ xs.map Prod.fst := by
  induction xs with
  | nil => simp [alookup]
  | cons p rest ih =>
      by_cases h : p.1 = k
      · simp [alookup, h]
      · simp only [alookup, h, if_false, List.map_cons, List.mem_cons, ih]
        constructor
        · exact Or.inr
        · rintro (he | hm)
          · exact absurd he.symm h
          · exact hm

theorem alookup_of_mem_nodup {α : Type} (xs : List (String × α))
    (k : String) (v : α) (hmem : (k, v) ∈ xs) (hnd : (xs.map Prod.fst).Nodup) :
    alookup xs k = some v := by
  induction xs with
  | nil => simp at hmem
  | cons p rest ih =>
      simp only [List.map_cons, List.nodup_cons] at hnd
      rcases List.mem_cons.mp hmem with rfl | hmem2
      · simp [alookup]
      · have hk : p.1 ≠ k := by
          intro he
          exact hnd.1 (he ▸ List.mem_map.mpr ⟨(k, v), hmem2, rfl⟩)
        simp only [alookup, hk, if_false]
        exact ih hmem2 hnd.2

theorem dictInsert_map_fst {α : Type} (xs : List (String × α)) (k : String)
    (v : α) :
    (dictInsert xs k v).map Prod.fst =
      if k ∈ xs.map Prod.fst then xs.map Prod.fst else xs.map Prod.fst ++ [k] := by
  induction xs with
  | nil => simp [dictInsert]
  | cons p rest ih =>
      by_cases h : p.1 = k
      · simp [dictInsert, h]
      · simp only [dictInsert, h, if_false, List.map_cons, ih, List.mem_cons]
        by_cases hm : k ∈ rest.map Prod.fst
        · rw [if_pos hm, if_pos (Or.inr hm)]
        · rw [if_neg hm, if_neg ?_]
          · simp
          · rintro (he | hmm)
            · exact h he.symm
            · exact hm hmm

theorem dictInsert_keys_nodup {α : Type} (xs : List (String × α)) (k : String)
    (v : α) (hnd : (xs.map Prod.fst).Nodup) :
    ((dictInsert xs k v).map Prod.fst).Nodup := by
  rw [dictInsert_map_fst]
  by_cases hm : k ∈ xs.map Prod.fst
  · rwa [if_pos hm]
  · rw [if_neg hm]
    refine List.Nodup.append hnd (List.nodup_singleton k) ?_
    intro a ha hak
    rw [List.mem_singleton] at hak
    exact hm (hak ▸ ha)

theorem dictMerge_keys_nodup {α : Type} (a b : List (String × α))
    (hnd : (a.map Prod.fst).Nodup) :
    ((dictMerge a b).map Prod.fst).Nodup := by
  induction b generalizing a with
  | nil => exact hnd
  | cons q rest ih =>
      exact ih (dictInsert a q.1 q.2) (dictInsert_keys_nodup a q.1 q.2 hnd)

theorem mem_dictMerge {α : Type} (a b : List (String × α)) (p : String × α)
    (h : p ∈ dictMerge a b) : p ∈ a ∨ p ∈ b := by
  induction b generalizing a with
  | nil => exact Or.inl h
  | cons q rest ih =>
      rcases ih (dictInsert a q.1 q.2) h with h2 | h2
      · rcases mem_dictInsert a q.1 q.2 p h2 with h3 | h3
        · exact Or.inl h3
        · exact Or.inr (by rw [h3]; simp)
      · exact Or.inr (List.mem_cons_of_mem _ h2)

theorem mem_fst_dictInsert {α : Type} (xs : List (String × α)) (k k0 : String)
    (v : α) :
    k ∈ (dictInsert xs k0 v).map Prod.fst ↔ k ∈ xs.map Prod.fst ∨ k = k0 := by
  rw [dictInsert_map_fst]
  by_cases hm : k0 ∈ xs.map Prod.fst
  · rw [if_pos hm]
    constructor
    · exact Or.inl
    · rintro (h | rfl)
      · exact h
      · exact hm
  · rw [if_neg hm]
    simp [List.mem_append]

theorem mem_fst_dictMerge {α : Type} (a b : List (String × α)) (k : String) :
    k ∈ (dictMerge a b).map Prod.fst ↔
      k ∈ a.map Prod.fst ∨ k ∈ b.map Prod.fst := by
  induction b generalizing a with
  | nil => simp [dictMerge]
  | cons q rest ih =>
      show k ∈ (dictMerge (dictInsert a q.1 q.2) rest).map Prod.fst ↔ _
      rw [ih, mem_fst_dictInsert]
      simp only [List.map_cons, List.mem_cons]
      constructor
      · rintro ((h | rfl) | h)
        · exact Or.inl h
        · exact Or.inr (Or.inl rfl)
        · exact Or.inr (Or.inr h)
      · rintro (h | (rfl | h))
        · exact Or.inl (Or.inl h)
        · exact Or.inl (Or.inr rfl)
        · exact Or.inr h

theorem dictInsert_append_of_not_mem {α : Type} (xs : List (String × α))
    (k : String) (v : α) (h : k ∉ xs.map Prod.fst) :
    dictInsert xs k v = xs ++ [(k, v)] := by
  induction xs with
  | nil => rfl
  | cons p rest ih =>
      have hk : p.1 ≠ k := fun he => h (by simp [he])
      simp only [dictInsert, hk, if_false, List.cons_append, List.cons.injEq,
        true_and]
      exact ih (fun hm => h (by simp [hm]))

theorem unfilterTableFold_eq (attrs : FAttrs) (fields : List (String × UField)) :
    ∀ tbl, unfilterTableFold attrs fields tbl =
      if fields.any (unfilterTrigger attrs) then
        tbl.filter (fun q => !q.2.metadata.nondiff)
      else tbl := by
  induction fields with
  | nil => intro tbl; simp [unfilterTableFold]
  | cons p rest ih =>
      intro tbl
      show unfilterTableFold attrs rest
        (if unfilterTrigger attrs p then
          tbl.filter (fun q => !q.2.metadata.nondiff) else tbl) = _
      by_cases ht : unfilterTrigger attrs p
      · rw [if_pos ht, ih]
        by_cases ha : rest.any (unfilterTrigger attrs)
        · simp [List.any_cons, ht, ha, List.filter_filter, Bool.and_self]
        · simp [List.any_cons, ht, ha]
      · rw [if_neg ht, ih, List.any_cons]
        rw [Bool.not_eq_true] at ht
        rw [ht]
        rw [Bool.false_or]

theorem filterTableFold_eq (attrs : FAttrs) :
    ∀ (fields : List (String × UField)) (tbl : List (String × UField)),
      (fields.map (fun p => p.2.name)).Nodup →
      (∀ p ∈ fields, filterTrigger attrs p = true →
        p.2.name ∉ tbl.map Prod.fst) →
      filterTableFold attrs fields tbl =
        tbl ++ fields.filterMap
          (fun p => if filterTrigger attrs p then
            some (p.2.name, copyFieldNondiff p.2) else none) := by
  intro fields
  induction fields with
  | nil => intro tbl _ _; simp [filterTableFold]
  | cons p rest ih =>
      intro tbl hnd hdisj
      simp only [List.map_cons, List.nodup_cons] at hnd
      show filterTableFold attrs rest
        (if filterTrigger attrs p then
          dictInsert tbl p.2.name (copyFieldNondiff p.2) else tbl) = _
      by_cases ht : filterTrigger attrs p
      · rw [if_pos ht,
          dictInsert_append_of_not_mem _ _ _ (hdisj p (by simp) ht)]
        rw [ih (tbl ++ [(p.2.name, copyFieldNondiff p.2)]) hnd.2 ?_]
        · simp [List.filterMap_cons, ht]
        · intro q hq htq
          simp only [List.map_append, List.mem_append, List.map_cons,
            List.mem_singleton, not_or]
          refine ⟨hdisj q (by simp [hq]) htq, ?_⟩
          simp only [List.map_nil, List.mem_cons, List.not_mem_nil, or_false]
          intro he
          exact hnd.1 (he ▸ List.mem_map.mpr ⟨q, hq, rfl⟩)
      · rw [if_neg ht, ih tbl hnd.2 (fun q hq htq => hdisj q (by simp [hq]) htq)]
        simp [List.filterMap_cons, ht]

theorem falookup_filterAttrs (fields : List (String × UField)) :
    ∀ (a : FAttrs) (n : String),
      falookup (filterAttrs fields a) n =
        (falookup a n).map
          (fun v => if fieldNonStatic fields n then filterVal v else v)
  | .fnil, n => rfl
  | .fcons m v rest, n => by
      by_cases h : m = n
      · subst h
        simp [filterAttrs, falookup]
      · simp [filterAttrs, falookup, h, falookup_filterAttrs fields rest n]

theorem falookup_unfilterAttrs (fields : List (String × UField)) :
    ∀ (a : FAttrs) (n : String),
      falookup (unfilterAttrs fields a) n =
        (falookup a n).map
          (fun v => if (alookup fields n).isSome then unfilterVal v else v)
  | .fnil, n => rfl
  | .fcons m v rest, n => by
      by_cases h : m = n
      · subst h
        simp [unfilterAttrs, falookup]
      · simp [unfilterAttrs, falookup, h, falookup_unfilterAttrs fields rest n]

theorem alookup_fattrsLeaves : ∀ (a : FAttrs) (n : String),
    alookup (fattrsLeaves a) n = (falookup a n).map fvalLeaves
  | .fnil, n => rfl
  | .fcons m v rest, n => by
      by_cases h : m = n
      · subst h
        simp [fattrsLeaves, alookup, falookup]
      · simp [fattrsLeaves, alookup, falookup, h, alookup_fattrsLeaves rest n]

theorem filterTrigger_nonstatic (attrs : FAttrs) (p : String × UField)
    (h : filterTrigger attrs p = true) : p.2.metadata.static = false := by
  unfold filterTrigger at h
  by_cases hs : p.2.metadata.static
  · rw [if_pos hs] at h; cases h
  · rwa [Bool.not_eq_true] at hs

theorem filterTrigger_leaf (attrs : FAttrs) (p : String × UField)
    (h : filterTrigger attrs p = true) :
    ∃ node, falookup attrs p.2.name = some (.leafV node) ∧
      isNondiff node = true := by
  unfold filterTrigger at h
  by_cases hs : p.2.metadata.static
  · rw [if_pos hs] at h; cases h
  · rw [if_neg hs] at h
    cases hl : falookup attrs p.2.name with
    | none => rw [hl] at h; cases h
    | some v =>
        cases v with
        | leafV node => rw [hl] at h; exact ⟨node, rfl, h⟩
        | subV t => rw [hl] at h; cases h

mutual

/-- On a tree with no nondiff overrides anywhere, `unfilter_nondiff` is
the identity. -/
theorem unfilterTree_id : ∀ (t : FTree), tblOkTree t = true →
    unfilterTree t = t
  | .mk dcf udf attrs, h => by
      simp only [tblOkTree, Bool.and_eq_true, List.all_eq_true] at h
      obtain ⟨hudf, hattrs⟩ := h
      have hkeep : udf.filter (fun q => !q.2.metadata.nondiff) = udf :=
        List.filter_eq_self.mpr (fun q hq => (hudf q hq).1)
      show FTree.mk dcf
        (unfilterTableFold attrs (mergedFields dcf udf) udf)
        (unfilterAttrs (mergedFields dcf udf) attrs) = FTree.mk dcf udf attrs
      rw [unfilterTableFold_eq, unfilterAttrs_id (mergedFields dcf udf) attrs hattrs]
      by_cases ha : (mergedFields dcf udf).any (unfilterTrigger attrs)
      · rw [if_pos ha, hkeep]
      · rw [if_neg ha]

/-- On a nondiff-free value, the recursion of `unfilter_nondiff` is the
identity. -/
theorem unfilterVal_id : ∀ (v : FVal), tblOkVal v = true → unfilterVal v = v
  | .leafV p, _ => rfl
  | .subV t, h => by
      show FVal.subV (unfilterTree t) = FVal.subV t
      rw [unfilterTree_id t (by simpa [tblOkVal] using h)]

/-- On a nondiff-free attribute bag, the traversal of
`unfilter_nondiff` is the identity. -/
theorem unfilterAttrs_id (fields : List (String × UField)) :
    ∀ (a : FAttrs), tblOkAttrs a = true → unfilterAttrs fields a = a
  | .fnil, _ => rfl
  | .fcons n v rest, h => by
      simp only [tblOkAttrs, Bool.and_eq_true] at h
      show FAttrs.fcons n (if (alookup fields n).isSome then unfilterVal v else v)
        (unfilterAttrs fields rest) = FAttrs.fcons n v rest
      rw [unfilterAttrs_id fields rest h.2, unfilterVal_id v h.1]
      by_cases hs : (alookup fields n).isSome
      · rw [if_pos hs]
      · rw [if_neg hs]

end

theorem filterMap_congr_mem {α β : Type} (l : List α) (f g : α → Option β)
    (h : ∀ a ∈ l, f a = g a) : l.filterMap f = l.filterMap g := by
  induction l with
  | nil => rfl
  | cons x xs ih =>
      rw [List.filterMap_cons, List.filterMap_cons, h x (by simp),
        ih (fun a ha => h a (by simp [ha]))]

mutual

/-- Leaf-sequence round trip: on a well-formed tree with no nondiff
overrides, `unfilter_nondiff` after `filter_nondiff` restores the
original leaf sequence. -/
theorem rtTree : ∀ (t : FTree), wfFTree t = true → tblOkTree t = true →
    ftreeLeaves (unfilterTree (filterTree t)) = ftreeLeaves t
  | .mk dcf udf attrs, hwf, htbl => by
      simp only [wfFTree, Bool.and_eq_true, List.all_eq_true] at hwf
      obtain ⟨⟨⟨⟨hndD, hndU⟩, hnmD⟩, hnmU⟩, hwfA⟩ := hwf
      simp only [tblOkTree, Bool.and_eq_true, List.all_eq_true] at htbl
      obtain ⟨hudf, htblA⟩ := htbl
      have hndD2 : (dcf.map Prod.fst).Nodup := (nodupB_iff _).mp hndD
      have hndU2 : (udf.map Prod.fst).Nodup := (nodupB_iff _).mp hndU
      have hnmD2 : ∀ x ∈ dcf, x.2.name = x.1 := fun x hx => by
        simpa using hnmD x hx
      have hnmU2 : ∀ x ∈ udf, x.2.name = x.1 := fun x hx => by
        simpa using hnmU x hx
      simp only [filterTree, unfilterTree, mergedFields_eq]
      set fields := dictMerge dcf udf with hfieldsdef
      have hfk : (fields.map Prod.fst).Nodup := dictMerge_keys_nodup dcf udf hndD2
      have hnmF : ∀ p ∈ fields, p.2.name = p.1 := by
        intro p hp
        rcases mem_dictMerge dcf udf p hp with h | h
        exacts [hnmD2 p h, hnmU2 p h]
      have hnamesnd : (fields.map (fun p => p.2.name)).Nodup := by
        rw [List.map_congr_left hnmF]
        exact hfk
      have hTrigNotUdf : ∀ p ∈ fields, filterTrigger attrs p = true →
          p.2.name ∉ udf.map Prod.fst := by
        intro p hp htr hmem
        have hstat := filterTrigger_nonstatic attrs p htr
        obtain ⟨e, he⟩ := Option.isSome_iff_exists.mp
          ((alookup_isSome_iff_mem_fst udf p.2.name).mpr hmem)
        have hemem := alookup_some_mem udf p.2.name e he
        have hestat : e.metadata.static = true := (hudf (p.2.name, e) hemem).2
        have hpf : alookup fields p.1 = some p.2 :=
          alookup_of_mem_nodup fields p.1 p.2 hp hfk
        have hmerge := alookup_dictMerge dcf udf hndU2 p.1
        rw [hnmF p hp] at he
        rw [he, hpf] at hmerge
        have : p.2 = e := Option.some.inj hmerge
        rw [this, hestat] at hstat
        cases hstat
      rw [filterTableFold_eq attrs fields udf hnamesnd hTrigNotUdf]
      set added := fields.filterMap
        (fun p => if filterTrigger attrs p then
          some (p.2.name, copyFieldNondiff p.2) else none) with haddeddef
      set attrsF := filterAttrs fields attrs with hattrsFdef
      set fields2 := dictMerge dcf (udf ++ added) with hfields2def
      have hKeepU : udf.filter (fun q => !q.2.metadata.nondiff) = udf :=
        List.filter_eq_self.mpr (fun q hq => (hudf q hq).1)
      have haddedmem : ∀ q ∈ added, ∃ p ∈ fields, filterTrigger attrs p = true ∧
          q = (p.2.name, copyFieldNondiff p.2) := by
        intro q hq
        rw [haddeddef] at hq
        simp only [List.mem_filterMap] at hq
        obtain ⟨p, hp, hqe⟩ := hq
        by_cases ht : filterTrigger attrs p
        · rw [if_pos ht] at hqe
          exact ⟨p, hp, ht, (Option.some.inj hqe).symm⟩
        · rw [if_neg ht] at hqe
          cases hqe
      have hDropA : added.filter (fun q => !q.2.metadata.nondiff) = [] := by
        rw [List.filter_eq_nil_iff]
        intro q hq
        obtain ⟨p, _, _, rfl⟩ := haddedmem q hq
        simp [copyFieldNondiff]
      have htable2 : unfilterTableFold attrsF fields2 (udf ++ added) = udf := by
        rw [unfilterTableFold_eq]
        by_cases ha : fields2.any (unfilterTrigger attrsF)
        · rw [if_pos ha, List.filter_append, hKeepU, hDropA, List.append_nil]
        · rw [if_neg ha]
          by_cases hadded : added = []
          · rw [hadded, List.append_nil]
          · exfalso
            obtain ⟨q, hq⟩ := List.exists_mem_of_ne_nil added hadded
            obtain ⟨p, hp, ht, rfl⟩ := haddedmem q hq
            obtain ⟨node, hnode, _⟩ := filterTrigger_leaf attrs p ht
            have hmemU2 : p.2.name ∈ (udf ++ added).map Prod.fst := by
              rw [List.map_append]
              exact List.mem_append.mpr (Or.inr (List.mem_map.mpr ⟨_, hq, rfl⟩))
            have hmemF2 : p.2.name ∈ fields2.map Prod.fst :=
              (mem_fst_dictMerge dcf (udf ++ added) p.2.name).mpr (Or.inr hmemU2)
            obtain ⟨e2, he2⟩ := Option.isSome_iff_exists.mp
              ((alookup_isSome_iff_mem_fst fields2 p.2.name).mpr hmemF2)
            have he2mem := alookup_some_mem fields2 p.2.name e2 he2
            have he2name : e2.name = p.2.name := by
              rcases mem_dictMerge dcf (udf ++ added) _ he2mem with h | h
              · exact hnmD2 _ h
              · rcases List.mem_append.mp h with h | h
                · exact hnmU2 _ h
                · obtain ⟨p3, _, _, hpe⟩ := haddedmem _ h
                  have h1 : p.2.name = p3.2.name :=
                    congrArg Prod.fst hpe
                  have h2 : e2 = copyFieldNondiff p3.2 :=
                    congrArg Prod.snd hpe
                  rw [h2, h1]
                  rfl
            have hattrsF : falookup attrsF p.2.name = some (.leafV node) := by
              rw [hattrsFdef, falookup_filterAttrs, hnode]
              simp [filterVal]
            rw [List.any_eq_true] at ha
            exact absurd ⟨(p.2.name, e2), he2mem, by
              unfold unfilterTrigger
              simp only [he2name, hattrsF]⟩ ha
      rw [htable2]
      simp only [ftreeLeaves, mergedFields_eq]
      refine congrArg List.flatten (filterMap_congr_mem fields _ _ ?_)
      intro p hp
      by_cases hs : p.2.metadata.static
      · rw [if_pos hs, if_pos hs]
      · rw [if_neg hs, if_neg hs,
          alookup_fattrsLeaves, alookup_fattrsLeaves, falookup_unfilterAttrs,
          hattrsFdef, falookup_filterAttrs, Option.map_map]
        have hlookupf : alookup fields p.2.name = some p.2 := by
          rw [hnmF p hp]
          exact alookup_of_mem_nodup fields p.1 p.2 hp hfk
        have hnonstat : fieldNonStatic fields p.2.name = true := by
          unfold fieldNonStatic
          rw [hlookupf, Bool.not_eq_true] at *
          rw [hlookupf]
          simp [hs]
        have hsome2 : (alookup fields2 p.2.name).isSome = true := by
          rw [alookup_isSome_iff_mem_fst]
          apply (mem_fst_dictMerge dcf (udf ++ added) p.2.name).mpr
          have hmemf : p.2.name ∈ fields.map Prod.fst :=
            (alookup_isSome_iff_mem_fst fields p.2.name).mp
              (by rw [hlookupf]; rfl)
          rcases (mem_fst_dictMerge dcf udf p.2.name).mp hmemf with h | h
          · exact Or.inl h
          · exact Or.inr (by rw [List.map_append]; exact List.mem_append.mpr (Or.inl h))
        cases hatt : falookup attrs p.2.name with
        | none => simp
        | some v =>
            simp only [Option.map_some']
            cases v with
            | leafV q =>
                simp [hnonstat, hsome2, filterVal, unfilterVal]
            | subV s =>
                simp only [hnonstat, if_true, filterVal, hsome2, unfilterVal,
                  Function.comp, fvalLeaves]
                exact congrArg some (rtAttrs attrs hwfA htblA p.2.name s hatt)

/-- Leaf-sequence round trip for every treeclass value stored in an
attribute bag. -/
theorem rtAttrs : ∀ (a : FAttrs), wfFAttrs a = true → tblOkAttrs a = true →
    ∀ (n : String) (s : FTree), falookup a n = some (.subV s) →
    ftreeLeaves (unfilterTree (filterTree s)) = ftreeLeaves s
  | .fnil, _, _, n, s, h => by simp [falookup] at h
  | .fcons m (.leafV q) rest, hwf, htb, n, s, h => by
      simp only [wfFAttrs, Bool.and_eq_true] at hwf
      simp only [tblOkAttrs, Bool.and_eq_true] at htb
      by_cases hm : m = n
      · rw [falookup, if_pos hm] at h
        cases Option.some.inj h
      · rw [falookup, if_neg hm] at h
        exact rtAttrs rest hwf.2 htb.2 n s h
  | .fcons m (.subV t) rest, hwf, htb, n, s, h => by
      simp only [wfFAttrs, Bool.and_eq_true] at hwf
      simp only [tblOkAttrs, Bool.and_eq_true] at htb
      by_cases hm : m = n
      · rw [falookup, if_pos hm] at h
        have hts : t = s := by
          have h2 := Option.some.inj h
          injection h2
        subst hts
        exact rtTree t (by simpa [wfFVal] using hwf.1)
          (by simpa [tblOkVal] using htb.1)
      · rw [falookup, if_neg hm] at h
        exact rtAttrs rest hwf.2 htb.2 n s h

end

/-- Counterexample to claim C6 as stated: `unfilter_nondiff` does not
remove every nondiff-tagged override.  On an instance whose only field
holds a treeclass value, the traversal never reaches a non-treeclass
node, its `true_func` never runs on that instance, and a nondiff-tagged
entry of the override table survives. -/
theorem claim_C6_unfilter_counterexample :
    undeclaredOf (unfilterTree (.mk [("sub", ⟨"sub", {}⟩)]
        [("sub", ⟨"sub", { static := true, nondiff := true }⟩)]
        (.fcons "sub" (.subV (.mk [] [] .fnil)) .fnil))) =
      [("sub", ⟨"sub", { static := true, nondiff := true }⟩)] ∧
    ({ static := true, nondiff := true } : Meta).nondiff = true :=
  ⟨rfl, rfl⟩

/-- Claim C6 (amended): `unfilter_nondiff` replaces the override table
by its nondiff-free part whenever the instance owns at least one
non-treeclass field value, and leaves the table untouched otherwise; in
either case overrides without the nondiff tag survive.  Consequently,
for any well-formed instance with no pre-existing nondiff overrides
(override entries carry `static=true` by construction),
`unfilter_nondiff(filter_nondiff(x))` has the same leaf sequence as `x`
under flatten. -/
theorem claim_C6_unfilter_filter_roundtrip :
    (∀ (dcf udf : List (String × UField)) (attrs : FAttrs),
      undeclaredOf (unfilterTree (.mk dcf udf attrs)) =
        if (mergedFields dcf udf).any (unfilterTrigger attrs) then
          udf.filter (fun q => !q.2.metadata.nondiff)
        else udf) ∧
    (∀ (dcf udf : List (String × UField)) (attrs : FAttrs)
      (q : String × UField), q ∈ udf → q.2.metadata.nondiff = false →
      q ∈ undeclaredOf (unfilterTree (.mk dcf udf attrs))) ∧
    (∀ t : FTree, wfFTree t = true → tblOkTree t = true →
      ftreeLeaves (unfilterTree (filterTree t)) = ftreeLeaves t) := by
  have hfst : ∀ (dcf udf : List (String × UField)) (attrs : FAttrs),
      undeclaredOf (unfilterTree (.mk dcf udf attrs)) =
        if (mergedFields dcf udf).any (unfilterTrigger attrs) then
          udf.filter (fun q => !q.2.metadata.nondiff)
        else udf := by
    intro dcf udf attrs
    simp only [unfilterTree, undeclaredOf]
    exact unfilterTableFold_eq attrs (mergedFields dcf udf) udf
  refine ⟨hfst, ?_, rtTree⟩
  intro dcf udf attrs q hq hnl
  rw [hfst]
  by_cases ha : (mergedFields dcf udf).any (unfilterTrigger attrs)
  · rw [if_pos ha]
    exact List.mem_filter.mpr ⟨hq, by simp [hnl]⟩
  · rw [if_neg ha]
    exact hq

/-- Concrete instantiation of `claim_C6_unfilter_filter_roundtrip`: a
frozen (non-nondiff) override survives unfiltering, and filtering then
unfiltering an instance with an integer-valued field and a float-valued
field restores the original leaf sequence. -/
theorem claim_C6_unfilter_filter_roundtrip_witness :
    ("fr", (⟨"fr", { static := true, frozen := true }⟩ : UField)) ∈
      undeclaredOf (unfilterTree (.mk [("fr", ⟨"fr", {}⟩)]
        [("fr", ⟨"fr", { static := true, frozen := true }⟩)]
        (.fcons "fr" (.leafV (.int 9)) .fnil))) ∧
    ftreeLeaves (unfilterTree (filterTree (.mk
      [("a", ⟨"a", {}⟩), ("b", ⟨"b", {}⟩)] []
      (.fcons "a" (.leafV (.int 1)) (.fcons "b" (.leafV (.float 2)) .fnil))))) =
      ftreeLeaves (.mk [("a", ⟨"a", {}⟩), ("b", ⟨"b", {}⟩)] []
        (.fcons "a" (.leafV (.int 1)) (.fcons "b" (.leafV (.float 2)) .fnil))) :=
  ⟨claim_C6_unfilter_filter_roundtrip.2.1 [("fr", ⟨"fr", {}⟩)]
      [("fr", ⟨"fr", { static := true, frozen := true }⟩)]
      (.fcons "fr" (.leafV (.int 9)) .fnil)
      ("fr", ⟨"fr", { static := true, frozen := true }⟩) (by simp) rfl,
    claim_C6_unfilter_filter_roundtrip.2.2
      (.mk [("a", ⟨"a", {}⟩), ("b", ⟨"b", {}⟩)] []
        (.fcons "a" (.leafV (.int 1)) (.fcons "b" (.leafV (.float 2)) .fnil)))
      (by decide) (by decide)⟩

/-! ## Frame effects of filter/unfilter through the structural copy

Source: `_pytree_map` (`tree_util.py` lines 377-384) runs its traversal
on `tree_copy(tree)` (line 87-88) and mutates attributes in place with
`object.__setattr__`.  Aliasing matters here, so instances live in an
explicit store addressed by naturals.  `tree_copy` goes through the host
flatten/unflatten: dynamic treeclass children are rebuilt as fresh
objects while static attribute values are installed into the copy by
reference (modelled from the spec: unflatten `directly installs static
attributes from the descriptor`, the flatten registration of this
revision not being under the sources). -/

/-- A heap attribute value: a non-treeclass leaf or a reference to an
instance object. -/
inductive HVal where
  | hleaf : PNode → HVal
  | href : Nat → HVal
deriving Repr

/-- An instance object record. -/
structure HNode where
  dcf : List (String × UField)
  udf : List (String × UField)
  attrs : List (String × HVal)
deriving Repr

/-- The object store. -/
abbrev Store : Type := List (Nat × HNode)

/-- Store lookup. -/
def nlookup : Store → Nat → Option HNode
  | [], _ => none
  | (a0, nd) :: rest, a => if a0 = a then some nd else nlookup rest a

/-- Store write: replace in place or append. -/
def nupdate : Store → Nat → HNode → Store
  | [], a, nd => [(a, nd)]
  | (a0, nd0) :: rest, a, nd =>
      if a0 = a then (a0, nd) :: rest else (a0, nd0) :: nupdate rest a nd

theorem nlookup_nupdate_self (σ : Store) (a : Nat) (nd : HNode) :
    nlookup (nupdate σ a nd) a = some nd := by
  induction σ with
  | nil => simp [nupdate, nlookup]
  | cons p rest ih =>
      obtain ⟨a0, nd0⟩ := p
      by_cases h : a0 = a
      · simp [nupdate, nlookup, h]
      · simp [nupdate, nlookup, h, ih]

theorem nlookup_nupdate_ne (σ : Store) (a b : Nat) (nd : HNode)
    (h : b ≠ a) : nlookup (nupdate σ a nd) b = nlookup σ b := by
  induction σ with
  | nil => simp [nupdate, nlookup, Ne.symm h]
  | cons p rest ih =>
      obtain ⟨a0, nd0⟩ := p
      by_cases h0 : a0 = a
      · subst h0
        simp [nupdate, nlookup, Ne.symm h]
      · by_cases hb : a0 = b
        · simp [nupdate, nlookup, h0, hb, h]
        · simp [nupdate, nlookup, h0, hb, ih]

/-- Trigger of the `filter_nondiff` table write, heap version. -/
def hfilterTrigger (attrs : List (String × HVal)) (p : String × UField) :
    Bool :=
  if p.2.metadata.static then false
  else
    match alookup attrs p.2.name with
    | some (.hleaf node) => isNondiff node
    | _ => false

/-- Table fold of `filter_nondiff`, heap version. -/
def hfilterTableFold (attrs : List (String × HVal))
    (fields : List (String × UField)) (tbl : List (String × UField)) :
    List (String × UField) :=
  fields.foldl
    (fun tb p =>
      if hfilterTrigger attrs p then
        dictInsert tb p.2.name (copyFieldNondiff p.2)
      else tb)
    tbl

/-- Trigger of the `unfilter_nondiff` table write, heap version. -/
def hunfilterTrigger (attrs : List (String × HVal)) (p : String × UField) :
    Bool :=
  match alookup attrs p.2.name with
  | some (.hleaf _) => true
  | _ => false

/-- Table fold of `unfilter_nondiff`, heap version. -/
def hunfilterTableFold (attrs : List (String × HVal))
    (fields : List (String × UField)) (tbl : List (String × UField)) :
    List (String × UField) :=
  fields.foldl
    (fun tb p =>
      if hunfilterTrigger attrs p then
        tb.filter (fun q => !q.2.metadata.nondiff)
      else tb)
    tbl

/-- Copy of the attribute slots, threading the store and counter; `cp`
performs the recursive instance copy. -/
def copyAttrsWith (cp : Store → Nat → Nat → Option (Store × Nat × Nat))
    (fields : List (String × UField)) :
    List (String × HVal) → Store → Nat →
      Option (Store × List (String × HVal) × Nat)
  | [], σ, ctr => some (σ, [], ctr)
  | (n, v) :: rest, σ, ctr =>
      match v with
      | .href b =>
          if fieldNonStatic fields n then
            match cp σ b ctr with
            | none => none
            | some (σ2, b2, ctr2) =>
                match copyAttrsWith cp fields rest σ2 ctr2 with
                | none => none
                | some (σ3, rest2, ctr3) =>
                    some (σ3, (n, .href b2) :: rest2, ctr3)
          else
            match copyAttrsWith cp fields rest σ ctr with
            | none => none
            | some (σ3, rest2, ctr3) => some (σ3, (n, .href b) :: rest2, ctr3)
      | .hleaf q =>
          match copyAttrsWith cp fields rest σ ctr with
          | none => none
          | some (σ3, rest2, ctr3) => some (σ3, (n, .hleaf q) :: rest2, ctr3)

/-- Heap `tree_copy` of the subtree rooted at `a`: dynamic treeclass
children are copied recursively at fresh addresses (of the counter),
every other attribute value — including references held by static
fields — is installed by reference.  Fuel bounds the recursion. -/
def copyRec : Nat → Store → Nat → Nat → Option (Store × Nat × Nat)
  | 0, _, _, _ => none
  | fuel + 1, σ, a, ctr =>
      match nlookup σ a with
      | none => none
      | some node =>
          match copyAttrsWith (copyRec fuel)
              (mergedFields node.dcf node.udf) node.attrs σ (ctr + 1) with
          | none => none
          | some (σ2, attrs2, ctr2) =>
              some (nupdate σ2 ctr { node with attrs := attrs2 }, ctr, ctr2)

/-- Child recursion of heap `filter_nondiff` over the field snapshot;
`rc` handles one recursive instance. -/
def hfilterChildrenWith (rc : Store → Nat → Option Store)
    (attrs : List (String × HVal)) :
    List (String × UField) → Store → Option Store
  | [], σ => some σ
  | p :: rest, σ =>
      if p.2.metadata.static then hfilterChildrenWith rc attrs rest σ
      else
        match alookup attrs p.2.name with
        | some (.href b) =>
            match rc σ b with
            | none => none
            | some σ2 => hfilterChildrenWith rc attrs rest σ2
        | _ => hfilterChildrenWith rc attrs rest σ

/-- Heap `filter_nondiff` (`where=None`) from root `a`: write the
folded table at `a`, then recurse into treeclass values of non-static
fields (static fields are `is_leaf`-skipped). -/
def hfilterRec : Nat → Store → Nat → Option Store
  | 0, _, _ => none
  | fuel + 1, σ, a =>
      match nlookup σ a with
      | none => none
      | some node =>
          hfilterChildrenWith (hfilterRec fuel) node.attrs
            (mergedFields node.dcf node.udf)
            (nupdate σ a
              { node with udf := (hfilterTableFold node.attrs
                  (mergedFields node.dcf node.udf) node.udf) })

/-- Child recursion of heap `unfilter_nondiff` over the field
snapshot; `rc` handles one recursive instance. -/
def hunfilterChildrenWith (rc : Store → Nat → Option Store)
    (attrs : List (String × HVal)) :
    List (String × UField) → Store → Option Store
  | [], σ => some σ
  | p :: rest, σ =>
      match alookup attrs p.2.name with
      | some (.href b) =>
          match rc σ b with
          | none => none
          | some σ2 => hunfilterChildrenWith rc attrs rest σ2
      | _ => hunfilterChildrenWith rc attrs rest σ

/-- Heap `unfilter_nondiff` from root `a`: write the folded table at
`a`, then recurse into every treeclass field value (static ones too,
since its `is_leaf` is constantly false). -/
def hunfilterRec : Nat → Store → Nat → Option Store
  | 0, _, _ => none
  | fuel + 1, σ, a =>
      match nlookup σ a with
      | none => none
      | some node =>
          hunfilterChildrenWith (hunfilterRec fuel) node.attrs
            (mergedFields node.dcf node.udf)
            (nupdate σ a
              { node with udf := (hunfilterTableFold node.attrs
                  (mergedFields node.dcf node.udf) node.udf) })

/-- C9 counterexample. Two instances: the outer holds the inner in a
static field, the inner carries a nondiff override (as `filter_nondiff`
leaves it).  `unfilter_nondiff`, run on the structural copy, still
reaches the inner instance — which the copy shares with the original —
and erases its override table in place: looking the inner address up in
the final store yields an empty table, while the input store still had
the nondiff entry there.  So the claim that the original tree is left
observably unchanged fails for unfilter. -/
theorem claim_C9_unfilter_in_place_counterexample :
    ((copyRec 4
        [(0, ⟨[("st", ⟨"st", {static := true}⟩)], [],
              [("st", .href 1)]⟩),
         (1, ⟨[("a", ⟨"a", {}⟩)],
              [("a", ⟨"a", {static := true, nondiff := true}⟩)],
              [("a", .hleaf (.int 5))]⟩)]
        0 2).bind (fun r => hunfilterRec 4 r.1 r.2.1)).bind
        (fun σf => (nlookup σf 1).map HNode.udf) = some [] ∧
    (nlookup
        [(0, ⟨[("st", ⟨"st", {static := true}⟩)], [],
              [("st", .href 1)]⟩),
         (1, ⟨[("a", ⟨"a", {}⟩)],
              [("a", ⟨"a", {static := true, nondiff := true}⟩)],
              [("a", .hleaf (.int 5))]⟩)]
        1).map HNode.udf =
      some [("a", ⟨"a", {static := true, nondiff := true}⟩)] :=
  ⟨rfl, rfl⟩

/-- All store addresses lie below the allocation counter. -/
abbrev belowDom (σ : Store) (ctr : Nat) : Prop := ∀ p ∈ σ, p.1 < ctr

/-- Well-formed field tables of an instance record: dictionary keys are
distinct and each descriptor is stored under its own name.  (The treeclass
machinery only ever builds such tables.) -/
abbrev WfTables (node : HNode) : Prop :=
  (node.dcf.map Prod.fst).Nodup ∧ (node.udf.map Prod.fst).Nodup ∧
  (∀ p ∈ node.dcf, p.2.name = p.1) ∧ (∀ p ∈ node.udf, p.2.name = p.1)

/-- The instances reachable from `a` through treeclass values of
non-static fields (the part `tree_copy` rebuilds) exist and carry
well-formed tables. -/
inductive WfDyn (σ : Store) : Nat → Prop where
  | mk : ∀ (a : Nat) (node : HNode), nlookup σ a = some node →
      WfTables node →
      (∀ n b, fieldNonStatic (mergedFields node.dcf node.udf) n = true →
        (n, .href b) ∈ node.attrs → WfDyn σ b) →
      WfDyn σ a

/-- The subtree rooted at `a` lives entirely at addresses `≥ ctr` as far
as non-static treeclass references go (static references may point
anywhere), with well-formed tables.  This is the shape of the copy that
`tree_copy` returns when started at counter `ctr`. -/
inductive FreshTree (ctr : Nat) (σ : Store) : Nat → Prop where
  | mk : ∀ (a : Nat) (node : HNode), ctr ≤ a → nlookup σ a = some node →
      WfTables node →
      (∀ n b, fieldNonStatic (mergedFields node.dcf node.udf) n = true →
        (n, .href b) ∈ node.attrs → FreshTree ctr σ b) →
      FreshTree ctr σ a

/-- Relation between an override table and its rewrite by a
`filter_nondiff` write: lookups either survive unchanged or produce a
static-tagged entry, and well-formedness is preserved. -/
abbrev tableEvo (udf tbl2 : List (String × UField)) : Prop :=
  (∀ n, alookup tbl2 n = alookup udf n ∨
    ∃ e, alookup tbl2 n = some e ∧ e.metadata.static = true) ∧
  ((udf.map Prod.fst).Nodup → (tbl2.map Prod.fst).Nodup) ∧
  ((∀ p ∈ udf, p.2.name = p.1) → ∀ p ∈ tbl2, p.2.name = p.1)

/-- Store evolution produced by `filter_nondiff` writes: every record is
unchanged or its override table is rewritten by a `tableEvo` step. -/
abbrev FilterEvo (σ σ2 : Store) : Prop :=
  ∀ b, nlookup σ2 b = nlookup σ b ∨
    ∃ node tbl2, nlookup σ b = some node ∧
      nlookup σ2 b = some { node with udf := tbl2 } ∧
      tableEvo node.udf tbl2

/-- Addresses below the counter are untouched. -/
abbrev BelowFrame (ctr : Nat) (σ σ2 : Store) : Prop :=
  ∀ b, b < ctr → nlookup σ2 b = nlookup σ b

theorem tableEvo_refl (udf : List (String × UField)) : tableEvo udf udf :=
  ⟨fun _ => Or.inl rfl, id, id⟩

theorem tableEvo_trans {udf t1 t2 : List (String × UField)}
    (h1 : tableEvo udf t1) (h2 : tableEvo t1 t2) : tableEvo udf t2 := by
  refine ⟨fun n => ?_, fun hnd => h2.2.1 (h1.2.1 hnd),
    fun hnm => h2.2.2 (h1.2.2 hnm)⟩
  rcases h2.1 n with h | ⟨e, he, hes⟩
  · rw [h]; exact h1.1 n
  · exact Or.inr ⟨e, he, hes⟩

theorem FilterEvo_refl (σ : Store) : FilterEvo σ σ :=
  fun _ => Or.inl rfl

theorem FilterEvo_trans {σ1 σ2 σ3 : Store} (h12 : FilterEvo σ1 σ2)
    (h23 : FilterEvo σ2 σ3) : FilterEvo σ1 σ3 := by
  intro b
  rcases h23 b with h3 | ⟨node2, t2, hl2, hl3, he2⟩
  · rw [h3]; exact h12 b
  · rcases h12 b with h2 | ⟨node1, t1, hl1, hl2b, he1⟩
    · rw [h2] at hl2
      exact Or.inr ⟨node2, t2, hl2, hl3, he2⟩
    · rw [hl2b] at hl2
      obtain ⟨node1d, node1u, node1a⟩ := node1
      cases Option.some.inj hl2
      exact Or.inr ⟨⟨node1d, node1u, node1a⟩, t2, hl1, hl3,
        tableEvo_trans he1 he2⟩

theorem BelowFrame_trans {ctr : Nat} {σ1 σ2 σ3 : Store}
    (h12 : BelowFrame ctr σ1 σ2) (h23 : BelowFrame ctr σ2 σ3) :
    BelowFrame ctr σ1 σ3 :=
  fun b hb => (h23 b hb).trans (h12 b hb)

theorem nlookup_some_lt {σ : Store} {ctr b : Nat} {nd : HNode}
    (hdom : belowDom σ ctr) (h : nlookup σ b = some nd) : b < ctr := by
  induction σ with
  | nil => simp [nlookup] at h
  | cons p rest ih =>
      obtain ⟨a0, nd0⟩ := p
      by_cases h0 : a0 = b
      · subst h0
        exact hdom (a0, nd0) (List.mem_cons_self _ _)
      · rw [nlookup, if_neg h0] at h
        exact ih (fun q hq => hdom q (List.mem_cons_of_mem _ hq)) h

theorem extend_of_belowFrame {σ σ2 : Store} {ctr : Nat}
    (hdom : belowDom σ ctr) (hbf : BelowFrame ctr σ σ2) :
    ∀ b nd, nlookup σ b = some nd → nlookup σ2 b = some nd := by
  intro b nd h
  rw [hbf b (nlookup_some_lt hdom h)]
  exact h

theorem FreshTree_extend {σ σ2 : Store} {ctr a : Nat}
    (hext : ∀ b nd, nlookup σ b = some nd → nlookup σ2 b = some nd)
    (h : FreshTree ctr σ a) : FreshTree ctr σ2 a := by
  induction h with
  | mk a node hle hl hwf hrec ih =>
      exact .mk a node hle (hext a node hl) hwf (fun n b hns hm => ih n b hns hm)

theorem FreshTree_weaken {σ : Store} {ctr ctr0 a : Nat} (hc : ctr ≤ ctr0)
    (h : FreshTree ctr0 σ a) : FreshTree ctr σ a := by
  induction h with
  | mk a node hle hl hwf hrec ih =>
      exact .mk a node (le_trans hc hle) hl hwf (fun n b hns hm => ih n b hns hm)

theorem WfDyn_extend {σ σ2 : Store} {a : Nat}
    (hext : ∀ b nd, nlookup σ b = some nd → nlookup σ2 b = some nd)
    (h : WfDyn σ a) : WfDyn σ2 a := by
  induction h with
  | mk a node hl hwf hrec ih =>
      exact .mk a node (hext a node hl) hwf (fun n b hns hm => ih n b hns hm)

/-- A `tableEvo` rewrite of the override table can only shrink the set
of non-static fields of the merged descriptor map. -/
theorem fieldNonStatic_of_tableEvo {dcf udf tbl2 : List (String × UField)}
    (hnu : (udf.map Prod.fst).Nodup) (hnt : (tbl2.map Prod.fst).Nodup)
    (hev : ∀ n, alookup tbl2 n = alookup udf n ∨
      ∃ e, alookup tbl2 n = some e ∧ e.metadata.static = true)
    (n : String) (h : fieldNonStatic (mergedFields dcf tbl2) n = true) :
    fieldNonStatic (mergedFields dcf udf) n = true := by
  rw [mergedFields_eq] at h ⊢
  unfold fieldNonStatic at h ⊢
  rw [alookup_dictMerge dcf tbl2 hnt n] at h
  rw [alookup_dictMerge dcf udf hnu n]
  rcases hev n with heq | ⟨e, he, hes⟩
  · rw [heq] at h
    exact h
  · rw [he] at h
    simp only at h
    rw [hes] at h
    simp at h

theorem FreshTree_filterEvo {σ σ2 : Store} {ctr a : Nat}
    (hev : FilterEvo σ σ2) (h : FreshTree ctr σ a) : FreshTree ctr σ2 a := by
  induction h with
  | mk a node hle hl hwf hrec ih =>
      rcases hev a with hsame | ⟨node0, tbl2, hl0, hl2, hte⟩
      · exact .mk a node hle (by rw [hsame]; exact hl) hwf
          (fun n b hns hm => ih n b hns hm)
      · have hnn : node0 = node := Option.some.inj (hl0.symm.trans hl)
        subst hnn
        obtain ⟨nd, nu, na⟩ := node0
        refine .mk a ⟨nd, tbl2, na⟩ hle hl2
          ⟨hwf.1, hte.2.1 hwf.2.1, hwf.2.2.1, hte.2.2 hwf.2.2.2⟩
          (fun n b hns hm => ?_)
        exact ih n b
          (fieldNonStatic_of_tableEvo hwf.2.1 (hte.2.1 hwf.2.1) hte.1 n hns) hm

theorem copyFieldNondiff_static (f : UField) :
    (copyFieldNondiff f).metadata.static = true := rfl

theorem copyFieldNondiff_name (f : UField) :
    (copyFieldNondiff f).name = f.name := rfl

theorem tableEvo_dictInsert_static {tbl : List (String × UField)}
    {k : String} {e : UField} (hes : e.metadata.static = true)
    (hen : e.name = k) : tableEvo tbl (dictInsert tbl k e) := by
  refine ⟨fun n => ?_, fun hnd => dictInsert_keys_nodup tbl k e hnd,
    fun hnm p hp => ?_⟩
  · by_cases hk : n = k
    · subst hk
      exact Or.inr ⟨e, alookup_dictInsert_self tbl n e, hes⟩
    · exact Or.inl (alookup_dictInsert_ne tbl e hk)
  · rcases mem_dictInsert tbl k e p hp with hm | hm
    · exact hnm p hm
    · rw [hm]
      exact hen

/-- The table write of `filter_nondiff` is a `tableEvo` step. -/
theorem hfilterTableFold_tableEvo (attrs : List (String × HVal))
    (fields tbl : List (String × UField)) :
    tableEvo tbl (hfilterTableFold attrs fields tbl) := by
  induction fields generalizing tbl with
  | nil => exact tableEvo_refl tbl
  | cons p rest ih =>
      unfold hfilterTableFold
      rw [List.foldl_cons]
      by_cases ht : hfilterTrigger attrs p = true
      · rw [if_pos ht]
        exact tableEvo_trans
          (tableEvo_dictInsert_static (copyFieldNondiff_static p.2)
            (copyFieldNondiff_name p.2))
          (ih (dictInsert tbl p.2.name (copyFieldNondiff p.2)))
      · rw [if_neg ht]
        exact ih tbl

/-- Child traversal of heap `filter_nondiff`: if the recursive worker
only performs `FilterEvo` steps away from the low addresses, so does
the fold over the field snapshot. -/
theorem hfilterChildrenWith_spec {ctr : Nat}
    (rc : Store → Nat → Option Store)
    (hrc : ∀ σ b σ2, FreshTree ctr σ b → rc σ b = some σ2 →
      FilterEvo σ σ2 ∧ BelowFrame ctr σ σ2)
    (attrs : List (String × HVal)) :
    ∀ (ps : List (String × UField)) (σ σ2 : Store),
      (∀ p ∈ ps, p.2.metadata.static = false → ∀ b,
        alookup attrs p.2.name = some (.href b) → FreshTree ctr σ b) →
      hfilterChildrenWith rc attrs ps σ = some σ2 →
      FilterEvo σ σ2 ∧ BelowFrame ctr σ σ2 := by
  intro ps
  induction ps with
  | nil =>
      intro σ σ2 _ h
      simp only [hfilterChildrenWith] at h
      cases Option.some.inj h
      exact ⟨FilterEvo_refl σ, fun _ _ => rfl⟩
  | cons p rest ih =>
      intro σ σ2 hkids h
      simp only [hfilterChildrenWith] at h
      by_cases hst : p.2.metadata.static = true
      · rw [if_pos hst] at h
        exact ih σ σ2
          (fun q hq => hkids q (List.mem_cons_of_mem _ hq)) h
      · rw [if_neg hst] at h
        have hstf : p.2.metadata.static = false := by
          rw [Bool.not_eq_true] at hst
          exact hst
        cases halk : alookup attrs p.2.name with
        | none =>
            rw [halk] at h
            exact ih σ σ2
              (fun q hq => hkids q (List.mem_cons_of_mem _ hq)) h
        | some v =>
            cases v with
            | hleaf q0 =>
                rw [halk] at h
                exact ih σ σ2
                  (fun q hq => hkids q (List.mem_cons_of_mem _ hq)) h
            | href b =>
                simp only [halk] at h
                cases hrcv : rc σ b with
                | none =>
                    simp only [hrcv] at h
                    exact Option.noConfusion h
                | some σm =>
                    simp only [hrcv] at h
                    have hft : FreshTree ctr σ b :=
                      hkids p (List.mem_cons_self _ _) hstf b halk
                    obtain ⟨hev1, hbf1⟩ := hrc σ b σm hft hrcv
                    obtain ⟨hev2, hbf2⟩ := ih σm σ2
                      (fun q hq hqs b2 halk2 =>
                        FreshTree_filterEvo hev1
                          (hkids q (List.mem_cons_of_mem _ hq) hqs b2 halk2))
                      h
                    exact ⟨FilterEvo_trans hev1 hev2,
                      BelowFrame_trans hbf1 hbf2⟩

/-- Heap `filter_nondiff` of a fresh subtree only rewrites override
tables (as `tableEvo` steps) and never touches an address below the
counter. -/
theorem hfilterRec_spec {ctr : Nat} :
    ∀ (fuel : Nat) (σ : Store) (a : Nat) (σ2 : Store),
      FreshTree ctr σ a → hfilterRec fuel σ a = some σ2 →
      FilterEvo σ σ2 ∧ BelowFrame ctr σ σ2 := by
  intro fuel
  induction fuel with
  | zero =>
      intro σ a σ2 _ h
      simp [hfilterRec] at h
  | succ fuel ih =>
      intro σ a σ2 hft h
      obtain ⟨a, node, hle, hl, hwf, hrec⟩ := hft
      simp only [hfilterRec] at h
      rw [hl] at h
      have hev1 : FilterEvo σ
          (nupdate σ a { node with udf := (hfilterTableFold node.attrs
            (mergedFields node.dcf node.udf) node.udf) }) := by
        intro b
        by_cases hb : b = a
        · subst hb
          exact Or.inr ⟨node, _, hl, nlookup_nupdate_self σ b _,
            hfilterTableFold_tableEvo node.attrs
              (mergedFields node.dcf node.udf) node.udf⟩
        · exact Or.inl (nlookup_nupdate_ne σ a b _ hb)
      have hbf1 : BelowFrame ctr σ
          (nupdate σ a { node with udf := (hfilterTableFold node.attrs
            (mergedFields node.dcf node.udf) node.udf) }) := by
        intro b hb
        exact nlookup_nupdate_ne σ a b _ (Nat.ne_of_lt (lt_of_lt_of_le hb hle))
      have hmnd : ((mergedFields node.dcf node.udf).map Prod.fst).Nodup := by
        rw [mergedFields_eq]
        exact dictMerge_keys_nodup node.dcf node.udf hwf.1
      have hmnm : ∀ p ∈ mergedFields node.dcf node.udf, p.2.name = p.1 := by
        intro p hp
        rw [mergedFields_eq] at hp
        rcases mem_dictMerge node.dcf node.udf p hp with hm | hm
        · exact hwf.2.2.1 p hm
        · exact hwf.2.2.2 p hm
      obtain ⟨hev2, hbf2⟩ := hfilterChildrenWith_spec (hfilterRec fuel)
        (fun σa ba σb hfta hra => ih σa ba σb hfta hra) node.attrs
        (mergedFields node.dcf node.udf) _ σ2
        (fun p hp hps b halk => by
          have hmem := alookup_some_mem node.attrs p.2.name _ halk
          have hns : fieldNonStatic (mergedFields node.dcf node.udf)
              p.2.name = true := by
            have hlk : alookup (mergedFields node.dcf node.udf) p.1 =
                some p.2 := alookup_of_mem_nodup _ p.1 p.2 hp hmnd
            unfold fieldNonStatic
            rw [hmnm p hp]
            simp only [hlk]
            rw [hps]
            rfl
          exact FreshTree_filterEvo hev1 (hrec p.2.name b hns hmem))
        h
      exact ⟨FilterEvo_trans hev1 hev2, BelowFrame_trans hbf1 hbf2⟩

theorem mem_nupdate {σ : Store} {a : Nat} {nd : HNode} {p : Nat × HNode} :
    p ∈ nupdate σ a nd → p ∈ σ ∨ p = (a, nd) := by
  induction σ with
  | nil =>
      intro h
      simp only [nupdate, List.mem_singleton] at h
      exact Or.inr h
  | cons q rest ih =>
      obtain ⟨a0, nd0⟩ := q
      intro h
      by_cases h0 : a0 = a
      · rw [nupdate, if_pos h0] at h
        rcases List.mem_cons.mp h with h | h
        · subst h
          subst h0
          exact Or.inr rfl
        · exact Or.inl (List.mem_cons_of_mem _ h)
      · rw [nupdate, if_neg h0] at h
        rcases List.mem_cons.mp h with h | h
        · subst h
          exact Or.inl (List.mem_cons_self _ _)
        · rcases ih h with hm | hm
          · exact Or.inl (List.mem_cons_of_mem _ hm)
          · exact Or.inr hm

theorem nlookup_none_of_belowDom {σ : Store} {ctr : Nat}
    (hdom : belowDom σ ctr) : nlookup σ ctr = none := by
  cases hl : nlookup σ ctr with
  | none => rfl
  | some nd => exact absurd (nlookup_some_lt hdom hl) (lt_irrefl ctr)

/-- The attribute copy: existing addresses are untouched, the counter
only grows and keeps bounding the store, and in the produced attribute
list every treeclass reference at a non-static field roots a fresh
well-formed subtree. -/
theorem copyAttrsWith_spec
    (cp : Store → Nat → Nat → Option (Store × Nat × Nat))
    (hcp : ∀ σ b ctr σ2 b2 ctr2, belowDom σ ctr → WfDyn σ b →
      cp σ b ctr = some (σ2, b2, ctr2) →
      BelowFrame ctr σ σ2 ∧ belowDom σ2 ctr2 ∧ ctr < ctr2 ∧
        FreshTree ctr σ2 b2)
    (fields : List (String × UField)) :
    ∀ (attrs : List (String × HVal)) (σ : Store) (ctr : Nat)
      (σ3 : Store) (attrs2 : List (String × HVal)) (ctr3 : Nat),
      belowDom σ ctr →
      (∀ n b, fieldNonStatic fields n = true → (n, .href b) ∈ attrs →
        WfDyn σ b) →
      copyAttrsWith cp fields attrs σ ctr = some (σ3, attrs2, ctr3) →
      BelowFrame ctr σ σ3 ∧ belowDom σ3 ctr3 ∧ ctr ≤ ctr3 ∧
        (∀ n b, fieldNonStatic fields n = true → (n, .href b) ∈ attrs2 →
          FreshTree ctr σ3 b) := by
  intro attrs
  induction attrs with
  | nil =>
      intro σ ctr σ3 attrs2 ctr3 hdom _ h
      simp only [copyAttrsWith, Option.some.injEq, Prod.mk.injEq] at h
      obtain ⟨h1, h2, h3⟩ := h
      subst h1; subst h2; subst h3
      exact ⟨fun _ _ => rfl, hdom, le_refl ctr,
        fun n b _ hm => absurd hm (List.not_mem_nil _)⟩
  | cons q rest ih =>
      obtain ⟨n, v⟩ := q
      intro σ ctr σ3 attrs2 ctr3 hdom hkids h
      simp only [copyAttrsWith] at h
      cases v with
      | hleaf q0 =>
          dsimp only at h
          cases hr : copyAttrsWith cp fields rest σ ctr with
          | none =>
              simp only [hr] at h
              exact Option.noConfusion h
          | some t =>
              obtain ⟨σt, rest2, ctrt⟩ := t
              simp only [hr, Option.some.injEq, Prod.mk.injEq] at h
              obtain ⟨h1, h2, h3⟩ := h
              subst h1; subst h2; subst h3
              obtain ⟨hbf, hdomt, hlet, hfr⟩ := ih σ ctr σt rest2 ctrt hdom
                (fun n2 b2 hns hm =>
                  hkids n2 b2 hns (List.mem_cons_of_mem _ hm)) hr
              refine ⟨hbf, hdomt, hlet, fun n2 b2 hns hm => ?_⟩
              rcases List.mem_cons.mp hm with hh | hh
              · exact absurd (Prod.mk.injEq .. ▸ hh).2 (by simp)
              · exact hfr n2 b2 hns hh
      | href b =>
          dsimp only at h
          by_cases hns : fieldNonStatic fields n = true
          · rw [if_pos hns] at h
            cases hcpv : cp σ b ctr with
            | none =>
                simp only [hcpv] at h
                exact Option.noConfusion h
            | some t =>
                obtain ⟨σ2, b2, ctr2⟩ := t
                simp only [hcpv] at h
                have hwd : WfDyn σ b :=
                  hkids n b hns (List.mem_cons_self _ _)
                obtain ⟨hbf1, hdom2, hlt2, hfr2⟩ :=
                  hcp σ b ctr σ2 b2 ctr2 hdom hwd hcpv
                cases hr : copyAttrsWith cp fields rest σ2 ctr2 with
                | none =>
                    simp only [hr] at h
                    exact Option.noConfusion h
                | some t2 =>
                    obtain ⟨σt, rest2, ctrt⟩ := t2
                    simp only [hr, Option.some.injEq, Prod.mk.injEq] at h
                    obtain ⟨h1, h2, h3⟩ := h
                    subst h1; subst h2; subst h3
                    obtain ⟨hbf2, hdomt, hlet, hfr3⟩ := ih σ2 ctr2 σt rest2
                      ctrt hdom2
                      (fun n2 b3 hns2 hm =>
                        WfDyn_extend (extend_of_belowFrame hdom hbf1)
                          (hkids n2 b3 hns2 (List.mem_cons_of_mem _ hm)))
                      hr
                    refine ⟨BelowFrame_trans
                        (fun b0 hb0 => hbf1 b0 hb0)
                        (fun b0 hb0 => hbf2 b0 (lt_trans hb0 hlt2)),
                      hdomt, le_trans (le_of_lt hlt2) hlet,
                      fun n2 b3 hns2 hm => ?_⟩
                    rcases List.mem_cons.mp hm with hh | hh
                    · have hb3 : b3 = b2 := by
                        have := (Prod.mk.injEq .. ▸ hh).2
                        exact HVal.href.inj this
                      subst hb3
                      exact FreshTree_extend
                        (extend_of_belowFrame hdom2 hbf2) hfr2
                    · exact FreshTree_weaken (le_of_lt hlt2)
                        (hfr3 n2 b3 hns2 hh)
          · rw [if_neg hns] at h
            cases hr : copyAttrsWith cp fields rest σ ctr with
            | none =>
                simp only [hr] at h
                exact Option.noConfusion h
            | some t =>
                obtain ⟨σt, rest2, ctrt⟩ := t
                simp only [hr, Option.some.injEq, Prod.mk.injEq] at h
                obtain ⟨h1, h2, h3⟩ := h
                subst h1; subst h2; subst h3
                obtain ⟨hbf, hdomt, hlet, hfr⟩ := ih σ ctr σt rest2 ctrt hdom
                  (fun n2 b2 hns2 hm =>
                    hkids n2 b2 hns2 (List.mem_cons_of_mem _ hm)) hr
                refine ⟨hbf, hdomt, hlet, fun n2 b2 hns2 hm => ?_⟩
                rcases List.mem_cons.mp hm with hh | hh
                · have hn2 : n2 = n := (Prod.mk.injEq .. ▸ hh).1
                  subst hn2
                  exact absurd hns2 hns
                · exact hfr n2 b2 hns2 hh

/-- Heap `tree_copy`: existing addresses are untouched, the result root
lies at the old counter and is a fresh well-formed subtree of the
extended store. -/
theorem copyRec_spec :
    ∀ (fuel : Nat) (σ : Store) (a ctr : Nat) (σ2 : Store) (a2 ctr2 : Nat),
      belowDom σ ctr → WfDyn σ a →
      copyRec fuel σ a ctr = some (σ2, a2, ctr2) →
      BelowFrame ctr σ σ2 ∧ belowDom σ2 ctr2 ∧ ctr < ctr2 ∧
        FreshTree ctr σ2 a2 := by
  intro fuel
  induction fuel with
  | zero =>
      intro σ a ctr σ2 a2 ctr2 _ _ h
      simp [copyRec] at h
  | succ fuel ih =>
      intro σ a ctr σ2 a2 ctr2 hdom hwd h
      obtain ⟨a, node, hl, hwf, hrec⟩ := hwd
      simp only [copyRec] at h
      rw [hl] at h
      cases hca : copyAttrsWith (copyRec fuel)
          (mergedFields node.dcf node.udf) node.attrs σ (ctr + 1) with
      | none =>
          simp only [hca] at h
          exact Option.noConfusion h
      | some t =>
          obtain ⟨σm, attrs2, ctrm⟩ := t
          simp only [hca, Option.some.injEq, Prod.mk.injEq] at h
          obtain ⟨h1, h2, h3⟩ := h
          subst h1; subst h2; subst h3
          have hdom1 : belowDom σ (ctr + 1) :=
            fun p hp => lt_trans (hdom p hp) (Nat.lt_succ_self ctr)
          obtain ⟨hbf1, hdomm, hlem, hfrm⟩ := copyAttrsWith_spec
            (copyRec fuel)
            (fun σa ba ctra σb b2 ctrb hda hwa hra =>
              ih σa ba ctra σb b2 ctrb hda hwa hra)
            (mergedFields node.dcf node.udf) node.attrs σ (ctr + 1)
            σm attrs2 ctrm hdom1 hrec hca
          have hmnone : nlookup σm ctr = none := by
            rw [hbf1 ctr (Nat.lt_succ_self ctr)]
            exact nlookup_none_of_belowDom hdom
          have hext2 : ∀ b nd, nlookup σm b = some nd →
              nlookup (nupdate σm ctr { node with attrs := attrs2 }) b =
                some nd := by
            intro b nd hb
            by_cases hbc : b = ctr
            · subst hbc
              rw [hmnone] at hb
              exact Option.noConfusion hb
            · rw [nlookup_nupdate_ne σm ctr b _ hbc]
              exact hb
          refine ⟨fun b hb => ?_, fun p hp => ?_,
            lt_of_lt_of_le (Nat.lt_succ_self ctr) hlem, ?_⟩
          · rw [nlookup_nupdate_ne σm ctr b _ (Nat.ne_of_lt hb)]
            exact hbf1 b (lt_trans hb (Nat.lt_succ_self ctr))
          · rcases mem_nupdate hp with hm | hm
            · exact hdomm p hm
            · rw [hm]
              exact lt_of_lt_of_le (Nat.lt_succ_self ctr) hlem
          · obtain ⟨ndc, nuu, naa⟩ := node
            refine .mk ctr ⟨ndc, nuu, attrs2⟩ (le_refl ctr)
              (nlookup_nupdate_self σm ctr _) hwf
              (fun n b hns hm => ?_)
            exact FreshTree_extend hext2
              (FreshTree_weaken (Nat.le_succ ctr) (hfrm n b hns hm))

/-- The store evolution of heap `unfilter_nondiff` keeps every record's
declared field map and attribute bag (only override tables change). -/
abbrev DAPreserve (σ σ2 : Store) : Prop :=
  ∀ b, (nlookup σ2 b).map (fun nd => (nd.dcf, nd.attrs)) =
    (nlookup σ b).map (fun nd => (nd.dcf, nd.attrs))

theorem DAPreserve_trans {σ1 σ2 σ3 : Store} (h12 : DAPreserve σ1 σ2)
    (h23 : DAPreserve σ2 σ3) : DAPreserve σ1 σ3 :=
  fun b => (h23 b).trans (h12 b)

theorem hunfilterChildrenWith_DA (rc : Store → Nat → Option Store)
    (hrc : ∀ σ b σ2, rc σ b = some σ2 → DAPreserve σ σ2)
    (attrs : List (String × HVal)) :
    ∀ (ps : List (String × UField)) (σ σ2 : Store),
      hunfilterChildrenWith rc attrs ps σ = some σ2 → DAPreserve σ σ2 := by
  intro ps
  induction ps with
  | nil =>
      intro σ σ2 h
      simp only [hunfilterChildrenWith] at h
      cases Option.some.inj h
      exact fun _ => rfl
  | cons p rest ih =>
      intro σ σ2 h
      simp only [hunfilterChildrenWith] at h
      cases halk : alookup attrs p.2.name with
      | none =>
          rw [halk] at h
          exact ih σ σ2 h
      | some v =>
          cases v with
          | hleaf q0 =>
              rw [halk] at h
              exact ih σ σ2 h
          | href b =>
              simp only [halk] at h
              cases hrcv : rc σ b with
              | none =>
                  simp only [hrcv] at h
                  exact Option.noConfusion h
              | some σm =>
                  simp only [hrcv] at h
                  exact DAPreserve_trans (hrc σ b σm hrcv) (ih σm σ2 h)

theorem hunfilterRec_DA :
    ∀ (fuel : Nat) (σ : Store) (a : Nat) (σ2 : Store),
      hunfilterRec fuel σ a = some σ2 → DAPreserve σ σ2 := by
  intro fuel
  induction fuel with
  | zero =>
      intro σ a σ2 h
      simp [hunfilterRec] at h
  | succ fuel ih =>
      intro σ a σ2 h
      simp only [hunfilterRec] at h
      cases hl : nlookup σ a with
      | none =>
          rw [hl] at h
          exact Option.noConfusion h
      | some node =>
          rw [hl] at h
          have h1 : DAPreserve σ (nupdate σ a
              { node with udf := (hunfilterTableFold node.attrs
                (mergedFields node.dcf node.udf) node.udf) }) := by
            intro b
            by_cases hb : b = a
            · subst hb
              rw [nlookup_nupdate_self, hl]
              obtain ⟨nd, nu, na⟩ := node
              rfl
            · rw [nlookup_nupdate_ne σ a b _ hb]
          exact DAPreserve_trans h1
            (hunfilterChildrenWith_DA (hunfilterRec fuel)
              (fun σa ba σb hra => ih σa ba σb hra) node.attrs
              (mergedFields node.dcf node.udf) _ σ2 h)

/-- C9 (amended): `filter_nondiff` is out-of-place — run on the
structural copy of a well-formed tree made at a fresh counter, it
leaves every record of the original store (every address below the
counter) exactly as it was.  `unfilter_nondiff` is only half
out-of-place: the original records keep their declared field maps and
attribute values, but their override tables may change (the
counterexample exhibits a nondiff override erased through a shared
static-field reference). -/
theorem claim_C9_out_of_place_frame :
    (∀ (fuel1 fuel2 : Nat) (σ : Store) (a ctr : Nat) (σc : Store)
        (ac ctrc : Nat) (σf : Store),
      belowDom σ ctr → WfDyn σ a →
      copyRec fuel1 σ a ctr = some (σc, ac, ctrc) →
      hfilterRec fuel2 σc ac = some σf →
      ∀ b, b < ctr → nlookup σf b = nlookup σ b) ∧
    (∀ (fuel1 fuel2 : Nat) (σ : Store) (a ctr : Nat) (σc : Store)
        (ac ctrc : Nat) (σf : Store),
      belowDom σ ctr → WfDyn σ a →
      copyRec fuel1 σ a ctr = some (σc, ac, ctrc) →
      hunfilterRec fuel2 σc ac = some σf →
      ∀ b, b < ctr →
        (nlookup σf b).map (fun nd => (nd.dcf, nd.attrs)) =
          (nlookup σ b).map (fun nd => (nd.dcf, nd.attrs))) := by
  constructor
  · intro fuel1 fuel2 σ a ctr σc ac ctrc σf hdom hwd hcopy hfil b hb
    obtain ⟨hbfc, hdomc, hltc, hfresh⟩ :=
      copyRec_spec fuel1 σ a ctr σc ac ctrc hdom hwd hcopy
    obtain ⟨hev, hbff⟩ := hfilterRec_spec fuel2 σc ac σf hfresh hfil
    rw [hbff b hb]
    exact hbfc b hb
  · intro fuel1 fuel2 σ a ctr σc ac ctrc σf hdom hwd hcopy hunf b hb
    obtain ⟨hbfc, hdomc, hltc, hfresh⟩ :=
      copyRec_spec fuel1 σ a ctr σc ac ctrc hdom hwd hcopy
    rw [hunfilterRec_DA fuel2 σc ac σf hunf b]
    rw [hbfc b hb]

/-- Witness: on the concrete two-instance store of the counterexample,
the frame theorem applies — the copy and both runs succeed, the filter
run leaves the original inner record untouched, and the unfilter run
keeps its declared fields and attribute values. -/
theorem claim_C9_out_of_place_frame_witness :
    belowDom
      [(0, ⟨[("st", ⟨"st", {static := true}⟩)], [], [("st", .href 1)]⟩),
       (1, ⟨[("a", ⟨"a", {}⟩)],
            [("a", ⟨"a", {static := true, nondiff := true}⟩)],
            [("a", .hleaf (.int 5))]⟩)] 2 ∧
    copyRec 4
      [(0, ⟨[("st", ⟨"st", {static := true}⟩)], [], [("st", .href 1)]⟩),
       (1, ⟨[("a", ⟨"a", {}⟩)],
            [("a", ⟨"a", {static := true, nondiff := true}⟩)],
            [("a", .hleaf (.int 5))]⟩)]
      0 2 = some
        ([(0, ⟨[("st", ⟨"st", {static := true}⟩)], [], [("st", .href 1)]⟩),
          (1, ⟨[("a", ⟨"a", {}⟩)],
               [("a", ⟨"a", {static := true, nondiff := true}⟩)],
               [("a", .hleaf (.int 5))]⟩),
          (2, ⟨[("st", ⟨"st", {static := true}⟩)], [], [("st", .href 1)]⟩)],
         2, 3) ∧
    hfilterRec 4
      [(0, ⟨[("st", ⟨"st", {static := true}⟩)], [], [("st", .href 1)]⟩),
       (1, ⟨[("a", ⟨"a", {}⟩)],
            [("a", ⟨"a", {static := true, nondiff := true}⟩)],
            [("a", .hleaf (.int 5))]⟩),
       (2, ⟨[("st", ⟨"st", {static := true}⟩)], [], [("st", .href 1)]⟩)]
      2 = some
        [(0, ⟨[("st", ⟨"st", {static := true}⟩)], [], [("st", .href 1)]⟩),
         (1, ⟨[("a", ⟨"a", {}⟩)],
              [("a", ⟨"a", {static := true, nondiff := true}⟩)],
              [("a", .hleaf (.int 5))]⟩),
         (2, ⟨[("st", ⟨"st", {static := true}⟩)], [], [("st", .href 1)]⟩)] ∧
    nlookup
      [(0, ⟨[("st", ⟨"st", {static := true}⟩)], [], [("st", .href 1)]⟩),
       (1, ⟨[("a", ⟨"a", {}⟩)],
            [("a", ⟨"a", {static := true, nondiff := true}⟩)],
            [("a", .hleaf (.int 5))]⟩),
       (2, ⟨[("st", ⟨"st", {static := true}⟩)], [], [("st", .href 1)]⟩)] 1 =
      nlookup
        [(0, ⟨[("st", ⟨"st", {static := true}⟩)], [], [("st", .href 1)]⟩),
         (1, ⟨[("a", ⟨"a", {}⟩)],
              [("a", ⟨"a", {static := true, nondiff := true}⟩)],
              [("a", .hleaf (.int 5))]⟩)] 1 ∧
    hunfilterRec 4
      [(0, ⟨[("st", ⟨"st", {static := true}⟩)], [], [("st", .href 1)]⟩),
       (1, ⟨[("a", ⟨"a", {}⟩)],
            [("a", ⟨"a", {static := true, nondiff := true}⟩)],
            [("a", .hleaf (.int 5))]⟩),
       (2, ⟨[("st", ⟨"st", {static := true}⟩)], [], [("st", .href 1)]⟩)]
      2 = some
        [(0, ⟨[("st", ⟨"st", {static := true}⟩)], [], [("st", .href 1)]⟩),
         (1, ⟨[("a", ⟨"a", {}⟩)], [], [("a", .hleaf (.int 5))]⟩),
         (2, ⟨[("st", ⟨"st", {static := true}⟩)], [], [("st", .href 1)]⟩)] ∧
    (nlookup
      [(0, ⟨[("st", ⟨"st", {static := true}⟩)], [], [("st", .href 1)]⟩),
       (1, ⟨[("a", ⟨"a", {}⟩)], [], [("a", .hleaf (.int 5))]⟩),
       (2, ⟨[("st", ⟨"st", {static := true}⟩)], [], [("st", .href 1)]⟩)]
      1).map (fun nd => (nd.dcf, nd.attrs)) =
      (nlookup
        [(0, ⟨[("st", ⟨"st", {static := true}⟩)], [], [("st", .href 1)]⟩),
         (1, ⟨[("a", ⟨"a", {}⟩)],
              [("a", ⟨"a", {static := true, nondiff := true}⟩)],
              [("a", .hleaf (.int 5))]⟩)]
        1).map (fun nd => (nd.dcf, nd.attrs)) := by
  have hwd : WfDyn
      [(0, ⟨[("st", ⟨"st", {static := true}⟩)], [], [("st", .href 1)]⟩),
       (1, ⟨[("a", ⟨"a", {}⟩)],
            [("a", ⟨"a", {static := true, nondiff := true}⟩)],
            [("a", .hleaf (.int 5))]⟩)] 0 := by
    refine .mk 0 _ rfl ⟨by decide, by decide, by decide, by decide⟩ ?_
    intro n b hns hm
    simp only [List.mem_singleton, Prod.mk.injEq] at hm
    obtain ⟨hn, hb⟩ := hm
    subst hn
    exact absurd hns (by decide)
  refine ⟨by decide, rfl, rfl, ?_, rfl, ?_⟩
  · exact claim_C9_out_of_place_frame.1 4 4 _ 0 2 _ 2 3 _
      (by decide) hwd rfl rfl 1 (by decide)
  · exact claim_C9_out_of_place_frame.2 4 4 _ 0 2 _ 2 3 _
      (by decide) hwd rfl rfl 1 (by decide)

end PyTC
